import Mathlib

/-!
# Verification of the NexisOS package-manager core (nexispm)

Shallow embedding of the nexispm crate's core algorithms, translated from the
Rust sources under `src/distroConfigs/packages/nexispm/src/`:

* `util.rs` — `ContentHash` hex round-trip, `hash_directory`;
* `resolver.rs` — `SemanticVersion::parse`, `find_latest_semver_tag`,
  `resolve_dependencies` (Kahn topological sort);
* `store/ingest.rs` — `PackageIngestor::ingest_package`, `scan_source_directory`;
* `generations/manager.rs` — `GenerationManager::switch_generation`.

Modelling conventions:

* Rust strings are Lean `String`s; byte-wise comparisons are modelled by the
  lexicographic order on the underlying character list, which agrees with the
  Rust byte order on ASCII data (all concrete inputs below are ASCII).
* Machine integers (`u32`, `u64`, `usize`) are `Nat` with explicit bounds
  where overflow matters (`u32` parsing checks the `2^32` bound).
* Cryptographic hashes (BLAKE3 / SHA-256) are modelled as injective functions
  of the exact byte (or string) transcript fed to the hasher: a digest is
  identified with its transcript, or abstracted by a parameter `fh` standing
  for the file-content hash.  Both the code-side and the spec-side definitions
  use the same abstraction, so equalities and inequalities of transcripts
  faithfully reflect equalities of digests (collision-freeness idealisation).
* Fallible I/O returns `Except`/`Option`; mutation is explicit state passing.
-/

namespace NexisPM

/-! ## ContentHash hex round-trip (`util.rs` lines 35–48)

`ContentHash` wraps `[u8; 32]`; we model the byte array as a `List Nat`
whose well-formedness (`length = 32`, each `< 256`) is carried as hypotheses.
-/

/-- Model of `ContentHash([u8; 32])` from `util.rs`. -/
structure ContentHash where
  bytes : List Nat
  deriving DecidableEq

/-- Errors of the `hex` crate's `decode`, as used by `ContentHash::from_hex`. -/
inductive HexError where
  | invalidHexCharacter (c : Char) (index : Nat)
  | oddLength
  | invalidStringLength
  deriving DecidableEq

/-- Lower-case hex digit for a nibble, as produced by `hex::encode`. -/
def hexChar (n : Nat) : Char :=
  if n < 10 then Char.ofNat (48 + n) else Char.ofNat (87 + n)

/-- Value of a hex digit, accepting both cases, as in `hex::decode`. -/
def hexVal (c : Char) : Option Nat :=
  if 48 ≤ c.toNat ∧ c.toNat ≤ 57 then some (c.toNat - 48)
  else if 97 ≤ c.toNat ∧ c.toNat ≤ 102 then some (c.toNat - 87)
  else if 65 ≤ c.toNat ∧ c.toNat ≤ 70 then some (c.toNat - 55)
  else none

/-- `hex::encode` over a byte list: two lower-case digits per byte. -/
def hexEncode (bs : List Nat) : List Char :=
  bs.flatMap fun b => [hexChar (b / 16), hexChar (b % 16)]

/-- Pairwise decoding of an even-length hex string (`hex::decode` body). -/
def hexDecodePairs : List Char → Nat → Except HexError (List Nat)
  | [], _ => .ok []
  | [c], i => .error (.invalidHexCharacter c i)
  | c1 :: c2 :: rest, i =>
    match hexVal c1 with
    | none => .error (.invalidHexCharacter c1 i)
    | some v1 =>
      match hexVal c2 with
      | none => .error (.invalidHexCharacter c2 (i + 1))
      | some v2 =>
        match hexDecodePairs rest (i + 2) with
        | .error e => .error e
        | .ok bs => .ok ((v1 * 16 + v2) :: bs)

/-- `hex::decode`: odd length is rejected up front. -/
def hexDecode (s : List Char) : Except HexError (List Nat) :=
  if s.length % 2 ≠ 0 then .error .oddLength else hexDecodePairs s 0

/-- `ContentHash::to_hex` (`util.rs` line 35): lower-case hex rendering. -/
def ContentHash.to_hex (h : ContentHash) : String :=
  ⟨hexEncode h.bytes⟩

/-- `ContentHash::from_hex` (`util.rs` line 40): decode, then require
exactly 32 bytes, else `InvalidStringLength`. -/
def ContentHash.from_hex (s : String) : Except HexError ContentHash :=
  match hexDecode s.data with
  | .error e => .error e
  | .ok bs =>
    if bs.length ≠ 32 then .error .invalidStringLength
    else .ok ⟨bs⟩

theorem hexVal_hexChar {n : Nat} (h : n < 16) : hexVal (hexChar n) = some n := by
  interval_cases n <;> decide

theorem hexDecodePairs_hexEncode (bs : List Nat) (hb : ∀ b ∈ bs, b < 256) :
    ∀ i, hexDecodePairs (hexEncode bs) i = .ok bs := by
  induction bs with
  | nil => intro i; rfl
  | cons b rest ih =>
    intro i
    have hb0 : b < 256 := hb b (List.mem_cons_self ..)
    have h1 : b / 16 < 16 := by omega
    have h2 : b % 16 < 16 := Nat.mod_lt _ (by omega)
    have hrest : ∀ x ∈ rest, x < 256 := fun x hx => hb x (List.mem_cons_of_mem _ hx)
    have hcons : hexEncode (b :: rest) =
        hexChar (b / 16) :: hexChar (b % 16) :: hexEncode rest := by
      simp [hexEncode]
    rw [hcons]
    simp only [hexDecodePairs, hexVal_hexChar h1, hexVal_hexChar h2, ih hrest (i + 2)]
    have : b / 16 * 16 + b % 16 = b := by omega
    simp [this]

theorem hexEncode_length (bs : List Nat) : (hexEncode bs).length = 2 * bs.length := by
  induction bs with
  | nil => rfl
  | cons b rest ih => simp [hexEncode] at ih ⊢; omega

theorem hexDecode_hexEncode (bs : List Nat) (hb : ∀ b ∈ bs, b < 256) :
    hexDecode (hexEncode bs) = .ok bs := by
  unfold hexDecode
  rw [hexEncode_length]
  simp [hexDecodePairs_hexEncode bs hb]

/-- **C10**. For every 32-byte `ContentHash` value `h`,
`ContentHash::from_hex(h.to_hex())` succeeds and returns a hash equal to `h`,
and `ContentHash::from_hex(s)` returns an error for every string `s` that does
not hex-decode to exactly 32 bytes. -/
theorem contentHash_hex_roundtrip (h : ContentHash)
    (hlen : h.bytes.length = 32) (hrange : ∀ b ∈ h.bytes, b < 256) :
    ContentHash.from_hex h.to_hex = .ok h ∧
    ∀ s : String, (∀ bs, hexDecode s.data = .ok bs → bs.length ≠ 32) →
      ∃ e, ContentHash.from_hex s = .error e := by
  constructor
  · unfold ContentHash.from_hex ContentHash.to_hex
    rw [show (⟨hexEncode h.bytes⟩ : String).data = hexEncode h.bytes from rfl,
      hexDecode_hexEncode h.bytes hrange]
    simp [hlen]
  · intro s hs
    unfold ContentHash.from_hex
    match hd : hexDecode s.data with
    | .error e => exact ⟨e, rfl⟩
    | .ok bs => exact ⟨.invalidStringLength, by simp [hs bs hd]⟩

/-- Witness for **C10** at the all-zero hash and the string `"zz"`. -/
theorem contentHash_hex_roundtrip_witness :
    ContentHash.from_hex (ContentHash.mk (List.replicate 32 0)).to_hex =
      .ok (ContentHash.mk (List.replicate 32 0)) ∧
    ∃ e, ContentHash.from_hex "zz" = .error e := by
  have h := contentHash_hex_roundtrip (ContentHash.mk (List.replicate 32 0))
    (by decide) (by decide)
  refine ⟨h.1, h.2 "zz" ?_⟩
  intro bs hbs
  simp [hexDecode, hexDecodePairs, hexVal] at hbs

/-! ## Semantic versions and `latest` resolution (`resolver.rs` lines 66–312)

Rust `String`/`&str` comparisons (`derive(Ord)` on `SemanticVersion`) are
byte-wise lexicographic; we model them on the character list, which agrees on
ASCII.
-/

/-- Byte-wise lexicographic strict order on character lists (Rust `str` order,
restricted to ASCII data). -/
def charsLt : List Char → List Char → Bool
  | [], [] => false
  | [], _ :: _ => true
  | _ :: _, [] => false
  | a :: as, b :: bs =>
    if a.toNat < b.toNat then true
    else if b.toNat < a.toNat then false
    else charsLt as bs

theorem charsLt_irrefl : ∀ l, charsLt l l = false := by
  intro l
  induction l with
  | nil => rfl
  | cons c cs ih => simp [charsLt, ih]

theorem charsLt_trans : ∀ {a b c : List Char},
    charsLt a b = true → charsLt b c = true → charsLt a c = true := by
  intro a
  induction a with
  | nil =>
    intro b c hab hbc
    cases b <;> cases c <;> simp_all [charsLt]
  | cons x xs ih =>
    intro b c hab hbc
    cases b with
    | nil => simp [charsLt] at hab
    | cons y ys =>
      cases c with
      | nil => simp [charsLt] at hbc
      | cons z zs =>
        simp only [charsLt] at hab hbc ⊢
        rcases Nat.lt_trichotomy x.toNat y.toNat with hxy | hxy | hxy <;>
          rcases Nat.lt_trichotomy y.toNat z.toNat with hyz | hyz | hyz
        · simp [Nat.lt_trans hxy hyz]
        · simp [hyz ▸ hxy]
        · rw [if_neg (by omega), if_pos (by omega)] at hbc; simp at hbc
        · simp [hxy ▸ hyz]
        · rw [if_neg (by omega), if_neg (by omega)] at hab
          rw [if_neg (by omega), if_neg (by omega)] at hbc
          rw [if_neg (by omega), if_neg (by omega)]
          exact ih hab hbc
        · rw [if_neg (by omega), if_pos (by omega)] at hbc; simp at hbc
        · rw [if_neg (by omega), if_pos (by omega)] at hab; simp at hab
        · rw [if_neg (by omega), if_pos (by omega)] at hab; simp at hab
        · rw [if_neg (by omega), if_pos (by omega)] at hab; simp at hab

theorem charsLt_connex : ∀ {a b : List Char},
    charsLt a b = false → charsLt b a = false → a = b := by
  intro a
  induction a with
  | nil =>
    intro b hab _
    cases b with
    | nil => rfl
    | cons y ys => simp [charsLt] at hab
  | cons x xs ih =>
    intro b hab hba
    cases b with
    | nil => simp [charsLt] at hba
    | cons y ys =>
      simp only [charsLt] at hab hba
      rcases Nat.lt_trichotomy x.toNat y.toNat with hxy | hxy | hxy
      · rw [if_pos (by omega)] at hab; simp at hab
      · rw [if_neg (by omega), if_neg (by omega)] at hab
        rw [if_neg (by omega), if_neg (by omega)] at hba
        have hxy' : x = y := by
          calc x = Char.ofNat x.toNat := (Char.ofNat_toNat x).symm
            _ = Char.ofNat y.toNat := by rw [hxy]
            _ = y := Char.ofNat_toNat y
        rw [hxy', ih hab hba]
      · rw [if_pos (by omega)] at hba; simp at hba

/-- Rust `Option<String>` order from `derive(Ord)`: `None < Some`, `Some`
compared byte-wise. -/
def optCharsLt : Option (List Char) → Option (List Char) → Bool
  | none, none => false
  | none, some _ => true
  | some _, none => false
  | some a, some b => charsLt a b

theorem optCharsLt_irrefl : ∀ o, optCharsLt o o = false := by
  intro o; cases o <;> simp [optCharsLt, charsLt_irrefl]

theorem optCharsLt_trans : ∀ {a b c},
    optCharsLt a b = true → optCharsLt b c = true → optCharsLt a c = true := by
  intro a b c hab hbc
  cases a <;> cases b <;> cases c <;> simp_all [optCharsLt]
  exact charsLt_trans hab hbc

theorem optCharsLt_connex : ∀ {a b},
    optCharsLt a b = false → optCharsLt b a = false → a = b := by
  intro a b hab hba
  cases a <;> cases b <;> simp_all [optCharsLt]
  exact charsLt_connex hab hba

/-- Model of `SemanticVersion` (`resolver.rs` lines 67–73).  The prerelease
string is kept as its character list. -/
structure SemVer where
  major : Nat
  minor : Nat
  patch : Nat
  prerelease : Option (List Char)
  deriving DecidableEq

/-- The strict order of `derive(PartialOrd, Ord)` on `SemanticVersion`:
lexicographic by declaration order of the fields, with `None < Some`. -/
def SemVer.lt (a b : SemVer) : Prop :=
  a.major < b.major ∨ (a.major = b.major ∧
    (a.minor < b.minor ∨ (a.minor = b.minor ∧
      (a.patch < b.patch ∨ (a.patch = b.patch ∧
        optCharsLt a.prerelease b.prerelease = true)))))

instance : DecidableRel SemVer.lt := fun a b => by
  unfold SemVer.lt; infer_instance

/-- `a ≤ b` as `¬ b < a` (the ordering is total). -/
def SemVer.le (a b : SemVer) : Prop := ¬ SemVer.lt b a

instance : DecidableRel SemVer.le := fun a b => by
  unfold SemVer.le; infer_instance

theorem SemVer.lt_irrefl (a : SemVer) : ¬ SemVer.lt a a := by
  simp [SemVer.lt, optCharsLt_irrefl]

theorem SemVer.lt_trans {a b c : SemVer} :
    SemVer.lt a b → SemVer.lt b c → SemVer.lt a c := by
  intro hab hbc
  unfold SemVer.lt at *
  rcases hab with h | ⟨e1, h⟩
  · rcases hbc with h' | ⟨e1', _⟩
    · exact Or.inl (by omega)
    · exact Or.inl (by omega)
  · rcases hbc with h' | ⟨e1', h'⟩
    · exact Or.inl (by omega)
    · refine Or.inr ⟨by omega, ?_⟩
      rcases h with h | ⟨e2, h⟩
      · rcases h' with h' | ⟨e2', _⟩
        · exact Or.inl (by omega)
        · exact Or.inl (by omega)
      · rcases h' with h' | ⟨e2', h'⟩
        · exact Or.inl (by omega)
        · refine Or.inr ⟨by omega, ?_⟩
          rcases h with h | ⟨e3, h⟩
          · rcases h' with h' | ⟨e3', _⟩
            · exact Or.inl (by omega)
            · exact Or.inl (by omega)
          · rcases h' with h' | ⟨e3', h'⟩
            · exact Or.inl (by omega)
            · exact Or.inr ⟨by omega, optCharsLt_trans h h'⟩

theorem SemVer.not_lt_not_gt_eq {a b : SemVer} :
    ¬ SemVer.lt a b → ¬ SemVer.lt b a → a = b := by
  intro hab hba
  unfold SemVer.lt at hab hba
  push_neg at hab hba
  have e1 : a.major = b.major := by omega
  have h2 := (hab.2 e1)
  have h2' := (hba.2 e1.symm)
  have e2 : a.minor = b.minor := by omega
  have h3 := h2.2 e2
  have h3' := h2'.2 e2.symm
  have e3 : a.patch = b.patch := by omega
  have h4 := h3.2 e3
  have h4' := h3'.2 e3.symm
  have e4 : a.prerelease = b.prerelease :=
    optCharsLt_connex (by simpa using h4) (by simpa using h4')
  cases a; cases b; simp_all

theorem SemVer.le_refl (a : SemVer) : SemVer.le a a := SemVer.lt_irrefl a

theorem SemVer.le_trans {a b c : SemVer} :
    SemVer.le a b → SemVer.le b c → SemVer.le a c := by
  intro hab hbc hca
  by_cases h : SemVer.lt a b
  · exact hbc (SemVer.lt_trans hca h)
  · have hba : a = b := SemVer.not_lt_not_gt_eq h hab
    exact hbc (hba ▸ hca)

theorem SemVer.le_total (a b : SemVer) : SemVer.le a b ∨ SemVer.le b a := by
  by_cases h : SemVer.lt b a
  · right
    intro hab
    exact SemVer.lt_irrefl a (SemVer.lt_trans hab h)
  · left; exact h

/-- Rust `str::parse::<u32>`: optional leading `'+'`, at least one ASCII
digit, all digits, and the value must fit in 32 bits (overflow during
accumulation is equivalent to the final value reaching `2^32`, since the
accumulator is monotone). -/
def parseU32 (s : List Char) : Option Nat :=
  let t := match s with
    | '+' :: rest => rest
    | other => other
  if t = [] then none
  else if t.all (fun c => decide (48 ≤ c.toNat ∧ c.toNat ≤ 57)) then
    let v := t.foldl (fun acc c => acc * 10 + (c.toNat - 48)) 0
    if v < 4294967296 then some v else none
  else none

/-- `version.find('-')` followed by `split_at`: the part before the first
dash and, when a dash exists, the suffix after it. -/
def splitPrerelease : List Char → List Char × Option (List Char)
  | [] => ([], none)
  | c :: rest =>
    if c = '-' then ([], some rest)
    else
      let vp := splitPrerelease rest
      (c :: vp.1, vp.2)

/-- Rust `str::split(sep)`: splits at every separator, keeping empty
segments. -/
def splitChar (sep : Char) : List Char → List (List Char)
  | [] => [[]]
  | c :: rest =>
    match splitChar sep rest with
    | [] => [[]]
    | g :: gs => if c = sep then [] :: g :: gs else (c :: g) :: gs

/-- `SemanticVersion::parse` (`resolver.rs` lines 77–105): strip a leading
`'v'`, split off the prerelease at the first `'-'`, split the version part on
`'.'`, require at least two components, default the patch component to `"0"`
(extra components are ignored, as `parts.get(2)` ignores `parts[3..]`). -/
def SemVer.parse (version : String) : Option SemVer :=
  let v := match version.data with
    | 'v' :: rest => rest
    | other => other
  let vp := splitPrerelease v
  match splitChar '.' vp.1 with
  | p0 :: p1 :: rest =>
    match parseU32 p0, parseU32 p1, parseU32 (rest.headD ['0']) with
    | some major, some minor, some patch => some ⟨major, minor, patch, vp.2⟩
    | _, _, _ => none
  | _ => none

/-- `ResolverError` (`resolver.rs` lines 19–44), error payloads kept as the
format-string inputs. -/
inductive ResolverError where
  | versionResolution (package msg : String)
  | gitError (package msg : String)
  | noValidTags (package repo : String)
  | circularDependency (cycle : String)
  | packageNotFound (package : String)
  | invalidVersion (package version : String)
  | networkError (package msg : String)
  | dependencyNotFound (package dependency : String)
  deriving DecidableEq

/-- The comparator of `valid_versions.sort_by(|(a, _), (b, _)| b.cmp(a))`:
`x` may precede `y` in the descending order iff `y ≤ x`. -/
def tagGe (x y : SemVer × String) : Prop := SemVer.le y.1 x.1

instance : DecidableRel tagGe := fun x y => by
  unfold tagGe; infer_instance

instance : IsTotal (SemVer × String) tagGe :=
  ⟨fun x y => (SemVer.le_total y.1 x.1).elim Or.inl Or.inr⟩

instance : IsTrans (SemVer × String) tagGe :=
  ⟨fun _ _ _ hxy hyz => SemVer.le_trans hyz hxy⟩

/-- `PackageResolver::find_latest_semver_tag` (`resolver.rs` lines 277–312):
collect the stable parses; if none, collect every parse; error if still
empty; sort descending (stably) and return the first tag. -/
def findLatestSemverTag (packageName : String) (tags : List String) :
    Except ResolverError String :=
  let stable := tags.filterMap fun t =>
    match SemVer.parse t with
    | some v => if v.prerelease.isNone then some (v, t) else none
    | none => none
  let valid := if stable.isEmpty then
      tags.filterMap fun t => (SemVer.parse t).map fun v => (v, t)
    else stable
  match List.insertionSort tagGe valid with
  | [] => .error (.noValidTags packageName "unknown")
  | x :: _ => .ok x.2

theorem insertionSort_tagGe_head_max {l : List (SemVer × String)}
    {x : SemVer × String} {rest : List (SemVer × String)}
    (h : List.insertionSort tagGe l = x :: rest) :
    ∀ y ∈ l, SemVer.le y.1 x.1 := by
  intro y hy
  have hy' : y ∈ List.insertionSort tagGe l :=
    (List.perm_insertionSort tagGe l).symm.subset hy
  rw [h] at hy'
  rcases List.mem_cons.mp hy' with heq | hmem
  · rw [heq]; exact SemVer.le_refl _
  · have hs := List.sorted_insertionSort tagGe l
    rw [h] at hs
    exact List.rel_of_sorted_cons hs y hmem

/-- **C4**. Given the probed tag list, the resolver selects a tag parsing as
the highest stable semantic version, and selects the highest prerelease tag
only when no tag parses as a stable version; in particular for
`["v1.0.0", "v1.0.1-beta", "v1.1.0", "v0.9"]` the resolved version is
`"v1.1.0"`. -/
theorem findLatestSemverTag_selects_highest (name : String) (tags : List String) :
    ((∃ t ∈ tags, ∃ v, SemVer.parse t = some v ∧ v.prerelease = none) →
      ∃ t v, findLatestSemverTag name tags = .ok t ∧ t ∈ tags ∧
        SemVer.parse t = some v ∧ v.prerelease = none ∧
        ∀ u ∈ tags, ∀ w, SemVer.parse u = some w → w.prerelease = none →
          SemVer.le w v) ∧
    ((¬ ∃ t ∈ tags, ∃ v, SemVer.parse t = some v ∧ v.prerelease = none) →
      (∃ t ∈ tags, ∃ v, SemVer.parse t = some v) →
      ∃ t v, findLatestSemverTag name tags = .ok t ∧ t ∈ tags ∧
        SemVer.parse t = some v ∧
        ∀ u ∈ tags, ∀ w, SemVer.parse u = some w → SemVer.le w v) ∧
    findLatestSemverTag "pkg" ["v1.0.0", "v1.0.1-beta", "v1.1.0", "v0.9"] =
      .ok "v1.1.0" := by
  refine ⟨?_, ?_, rfl⟩
  · rintro ⟨t, ht, v, hparse, hstable⟩
    set stableF : String → Option (SemVer × String) := fun t =>
      match SemVer.parse t with
      | some v => if v.prerelease.isNone then some (v, t) else none
      | none => none with hstableF
    have hmem : (v, t) ∈ tags.filterMap stableF := by
      rw [List.mem_filterMap]
      exact ⟨t, ht, by simp [hstableF, hparse, hstable]⟩
    have hne : (tags.filterMap stableF).isEmpty = false := by
      cases hE : tags.filterMap stableF with
      | nil => rw [hE] at hmem; cases hmem
      | cons a as => simp [hE]
    unfold findLatestSemverTag
    simp only [hne, Bool.false_eq_true, if_false]
    cases hsort : List.insertionSort tagGe (tags.filterMap stableF) with
    | nil =>
      have := (List.perm_insertionSort tagGe (tags.filterMap stableF)).symm
      rw [hsort] at this
      rw [this.eq_nil] at hmem
      cases hmem
    | cons x rest =>
      have hx : x ∈ tags.filterMap stableF := by
        have : x ∈ List.insertionSort tagGe (tags.filterMap stableF) := by
          rw [hsort]; exact List.mem_cons_self ..
        exact (List.perm_insertionSort tagGe (tags.filterMap stableF)).subset this
      rw [List.mem_filterMap] at hx
      obtain ⟨u, hu, hfu⟩ := hx
      have hparse_u : SemVer.parse u = some x.1 ∧ x.1.prerelease = none ∧ u = x.2 := by
        simp only [hstableF] at hfu
        cases hp : SemVer.parse u with
        | none => rw [hp] at hfu; cases hfu
        | some w =>
          rw [hp] at hfu
          by_cases hw : w.prerelease.isNone
          · simp only [hw, if_true, Option.some.injEq] at hfu
            subst hfu
            exact ⟨rfl, Option.isNone_iff_eq_none.mp hw, rfl⟩
          · simp [hw] at hfu
      refine ⟨x.2, x.1, rfl, hparse_u.2.2 ▸ hu, hparse_u.2.2 ▸ hparse_u.1,
        hparse_u.2.1, ?_⟩
      intro u' hu' w hw hwst
      have : (w, u') ∈ tags.filterMap stableF := by
        rw [List.mem_filterMap]
        exact ⟨u', hu', by simp [hstableF, hw, hwst]⟩
      exact insertionSort_tagGe_head_max hsort (w, u') this
  · intro hnostable ⟨t, ht, v, hparse⟩
    set stableF : String → Option (SemVer × String) := fun t =>
      match SemVer.parse t with
      | some v => if v.prerelease.isNone then some (v, t) else none
      | none => none with hstableF
    have hstE : tags.filterMap stableF = [] := by
      rw [List.eq_nil_iff_forall_not_mem]
      rintro ⟨w, u⟩ hmem
      rw [List.mem_filterMap] at hmem
      obtain ⟨u', hu', hfu⟩ := hmem
      apply hnostable
      simp only [hstableF] at hfu
      cases hp : SemVer.parse u' with
      | none => rw [hp] at hfu; cases hfu
      | some w' =>
        by_cases hw' : w'.prerelease.isNone
        · exact ⟨u', hu', w', hp, Option.isNone_iff_eq_none.mp hw'⟩
        · rw [hp] at hfu; simp [hw'] at hfu
    set allF : String → Option (SemVer × String) := fun t =>
      (SemVer.parse t).map fun v => (v, t) with hallF
    have hmem : (v, t) ∈ tags.filterMap allF := by
      rw [List.mem_filterMap]
      exact ⟨t, ht, by simp [hallF, hparse]⟩
    unfold findLatestSemverTag
    simp only [hstE, List.isEmpty_nil, if_true]
    cases hsort : List.insertionSort tagGe (tags.filterMap allF) with
    | nil =>
      have := (List.perm_insertionSort tagGe (tags.filterMap allF)).symm
      rw [hsort] at this
      rw [this.eq_nil] at hmem
      cases hmem
    | cons x rest =>
      have hx : x ∈ tags.filterMap allF := by
        have : x ∈ List.insertionSort tagGe (tags.filterMap allF) := by
          rw [hsort]; exact List.mem_cons_self ..
        exact (List.perm_insertionSort tagGe (tags.filterMap allF)).subset this
      rw [List.mem_filterMap] at hx
      obtain ⟨u, hu, hfu⟩ := hx
      simp only [hallF, Option.map_eq_some'] at hfu
      obtain ⟨w, hwparse, hwx⟩ := hfu
      refine ⟨x.2, x.1, rfl, ?_, ?_, ?_⟩
      · rw [← hwx]; exact hu
      · rw [← hwx]; exact hwparse
      · intro u' hu' w' hw'
        have : (w', u') ∈ tags.filterMap allF := by
          rw [List.mem_filterMap]
          exact ⟨u', hu', by simp [hallF, hw']⟩
        exact insertionSort_tagGe_head_max hsort (w', u') this

/-- Witness for **C4**: the stable-selection clause applied to the concrete
tag list of scenario S4. -/
theorem findLatestSemverTag_selects_highest_witness :
    ∃ t v, findLatestSemverTag "pkg" ["v1.0.0", "v1.0.1-beta", "v1.1.0", "v0.9"] =
        .ok t ∧ t ∈ ["v1.0.0", "v1.0.1-beta", "v1.1.0", "v0.9"] ∧
      SemVer.parse t = some v ∧ v.prerelease = none ∧
      ∀ u ∈ ["v1.0.0", "v1.0.1-beta", "v1.1.0", "v0.9"], ∀ w,
        SemVer.parse u = some w → w.prerelease = none → SemVer.le w v :=
  (findLatestSemverTag_selects_highest "pkg"
      ["v1.0.0", "v1.0.1-beta", "v1.1.0", "v0.9"]).1
    ⟨"v1.0.0", by decide, ⟨1, 0, 0, none⟩, by decide, rfl⟩

/-! ## Generation activation (`generations/manager.rs` lines 27–37)

`switch_generation` performs two filesystem steps: `symlink(gen_path, temp)`
(which fails with `EEXIST` if the temp link is present) and the atomic
`rename(temp, current)`.  We model the generations directory as a map from
path to symlink target and expose every intermediate state as a trace.
-/

/-- A directory of symlinks: absolute path ↦ link target. -/
structure LinkDir where
  links : List (String × String)
  deriving DecidableEq

/-- `std::os::unix::fs::symlink`: fails if the path already exists. -/
def symlinkCreate (fs : LinkDir) (path target : String) : Except Unit LinkDir :=
  if (fs.links.lookup path).isSome then .error ()
  else .ok ⟨(path, target) :: fs.links⟩

/-- `fs::rename` on a symlink: atomically moves `src` onto `dst`, replacing
any existing `dst`. -/
def renameLink (fs : LinkDir) (src dst : String) : Except Unit LinkDir :=
  match fs.links.lookup src with
  | none => .error ()
  | some target =>
    .ok ⟨(dst, target) :: fs.links.filter (fun p => !(p.1 == src || p.1 == dst))⟩

/-- `generations_dir.join(gen_id.to_string())`. -/
def genPath (generationsDir : String) (genId : Nat) : String :=
  generationsDir ++ "/" ++ toString genId

/-- `GenerationManager::switch_generation`, exposed as the list of every
observable filesystem state: initial, after the temp symlink is created, and
after the rename.  An error stops the sequence with the states reached so
far. -/
def switchGenerationTrace (generationsDir : String) (genId : Nat)
    (fs : LinkDir) : List LinkDir :=
  let gp := genPath generationsDir genId
  let currentLink := generationsDir ++ "/current"
  let tempLink := generationsDir ++ "/.current.tmp"
  match symlinkCreate fs tempLink gp with
  | .error _ => [fs]
  | .ok fs1 =>
    match renameLink fs1 tempLink currentLink with
    | .error _ => [fs, fs1]
    | .ok fs2 => [fs, fs1, fs2]

theorem string_append_ne_of_ne {a b c : String} (h : b.data ≠ c.data) :
    a ++ b ≠ a ++ c := by
  intro he
  apply h
  have : (a ++ b).data = (a ++ c).data := by rw [he]
  rw [String.data_append, String.data_append] at this
  exact List.append_cancel_left this

/-- **C8**. At every intermediate point of generation activation — the
sequence that creates `generations/.current.tmp → generations/<id>` and then
renames it onto `generations/current` — the `generations/current` link
resolves either to the previous generation directory or to the new one. -/
theorem switch_generation_atomic (dir : String) (genId : Nat) (fs : LinkDir)
    (old : String)
    (hcur : fs.links.lookup (dir ++ "/current") = some old) :
    ∀ s ∈ switchGenerationTrace dir genId fs,
      s.links.lookup (dir ++ "/current") = some old ∨
      s.links.lookup (dir ++ "/current") = some (genPath dir genId) := by
  have hne : dir ++ "/.current.tmp" ≠ dir ++ "/current" :=
    string_append_ne_of_ne (by decide)
  unfold switchGenerationTrace symlinkCreate
  by_cases htmp : ((fs.links.lookup (dir ++ "/.current.tmp")).isSome : Prop)
  · simp only [if_pos htmp]
    intro s hs
    rw [List.mem_singleton] at hs
    exact hs ▸ Or.inl hcur
  · simp only [if_neg htmp]
    have hbeq : (dir ++ "/current" == dir ++ "/.current.tmp") = false :=
      beq_eq_false_iff_ne.mpr fun h => hne h.symm
    have hfs1 : (LinkDir.mk ((dir ++ "/.current.tmp", genPath dir genId) :: fs.links)).links.lookup
        (dir ++ "/current") = some old := by
      simp only [List.lookup, hbeq]
      exact hcur
    unfold renameLink
    simp only [List.lookup, beq_self_eq_true]
    intro s hs
    simp only [List.mem_cons, List.mem_singleton, List.not_mem_nil, or_false] at hs
    rcases hs with h | h | h
    · exact h ▸ Or.inl hcur
    · exact h ▸ Or.inl hfs1
    · right
      rw [h]
      simp [List.lookup]

/-- Witness for **C8**: in a concrete activation of generation 2 over a
state whose `current` points at generation 1, the intermediate state
reached after the temp symlink is created still resolves `current` to the
old or the new generation. -/
theorem switch_generation_atomic_witness :
    (LinkDir.mk [("g/.current.tmp", "g/2"),
        ("g/current", "g/1")]).links.lookup "g/current" = some "g/1" ∨
    (LinkDir.mk [("g/.current.tmp", "g/2"),
        ("g/current", "g/1")]).links.lookup "g/current" =
      some (genPath "g" 2) :=
  switch_generation_atomic "g" 2 ⟨[("g/current", "g/1")]⟩ "g/1" rfl
    (LinkDir.mk [("g/.current.tmp", "g/2"), ("g/current", "g/1")])
    (by decide)

/-! ## Dependency resolution (`resolver.rs` lines 315–394)

`resolve_dependencies` collects the packages into a `HashMap` keyed by name,
checks that every declared dependency is a key, computes in-degrees (the
number of dependents of each package), then runs a queue-based Kahn sort and
reports `CircularDependency` if not every package was consumed.

`HashMap` iteration order is unspecified in Rust; the model fixes
first-insertion order.  All per-claim observations below (which error is
returned, whether the sort consumes every package, and the output positions
for the concrete inputs used) are independent of that choice.
-/

/-- The fields of `ResolvedPackageConfig` that `resolve_dependencies` reads
and writes: the package name, its declared dependencies, and the build-order
index. -/
structure RPkg where
  name : String
  dependencies : List String
  build_order : Nat
  deriving DecidableEq

/-- `HashMap::insert` semantics on an association list: replace the value of
an existing key, else append. -/
def upsert (m : List (String × RPkg)) (k : String) (v : RPkg) :
    List (String × RPkg) :=
  if m.any (·.1 == k) then m.map (fun p => if p.1 == k then (k, v) else p)
  else m ++ [(k, v)]

/-- `packages.into_iter().map(|pkg| (pkg.name, pkg)).collect::<HashMap<_,_>>()`. -/
def packageMap (packages : List RPkg) : List (String × RPkg) :=
  packages.foldl (fun m p => upsert m p.name p) []

/-- Whether `n` is a key of the map (`package_map.contains_key`,
`in_degree.get_mut(dep).is_some()`). -/
def isKey (m : List (String × RPkg)) (n : String) : Bool :=
  (m.find? (·.1 == n)).isSome

/-- `dependency_graph.get(&name)`: the declared dependencies of a key, `[]`
for a non-key. -/
def depsOf (m : List (String × RPkg)) (n : String) : List String :=
  match m.find? (·.1 == n) with
  | some p => p.2.dependencies
  | none => []

/-- The first declared dependency that is not a key of the map, in map
iteration order (the in-degree pass returns `DependencyNotFound` on it). -/
def findMissingDep (m : List (String × RPkg)) : Option String :=
  m.findSome? fun p => p.2.dependencies.find? fun d => !(m.any (·.1 == d))

/-- The computed in-degree of `v`: the number of occurrences of `v` among all
declared dependency lists. -/
def initialDeg (m : List (String × RPkg)) (v : String) : Nat :=
  (m.flatMap (·.2.dependencies)).count v

/-- The dependency-processing inner loop of Kahn's sort: for each declared
dependency that is a key, decrement its degree and enqueue it when the
decrement reaches zero.  (On states reachable from a well-formed start the
degree is positive whenever it is decremented, so the saturating `Nat`
subtraction agrees with the Rust `usize` arithmetic.) -/
def stepDeps (m : List (String × RPkg)) :
    List String → (String → Nat) → List String → ((String → Nat) × List String)
  | [], deg, acc => (deg, acc)
  | d :: ds, deg, acc =>
    if isKey m d then
      stepDeps m ds (fun x => if x = d then deg d - 1 else deg x)
        (if deg d - 1 = 0 then acc ++ [d] else acc)
    else stepDeps m ds deg acc

theorem stepDeps_snd_length (m : List (String × RPkg)) :
    ∀ (ds : List String) (deg : String → Nat) (acc : List String),
      ((stepDeps m ds deg acc).2).length ≤ acc.length + ds.length := by
  intro ds
  induction ds with
  | nil => intro deg acc; simp [stepDeps]
  | cons d ds ih =>
    intro deg acc
    unfold stepDeps
    by_cases hk : isKey m d
    · rw [if_pos hk]
      by_cases hz : deg d - 1 = 0
      · rw [if_pos hz]
        have h := ih (fun x => if x = d then deg d - 1 else deg x) (acc ++ [d])
        rw [List.length_append] at h
        simp only [List.length_cons, List.length_nil] at h ⊢
        omega
      · rw [if_neg hz]
        have h := ih (fun x => if x = d then deg d - 1 else deg x) acc
        simp only [List.length_cons] at h ⊢
        omega
    · rw [if_neg hk]
      have h := ih deg acc
      simp only [List.length_cons] at h ⊢
      omega

theorem length_le_flatMap {α β : Type} (f : α → List β) {p : α} {m : List α}
    (hp : p ∈ m) : (f p).length ≤ (m.flatMap f).length := by
  induction m with
  | nil => cases hp
  | cons q m ih =>
    rw [List.flatMap_cons, List.length_append]
    rcases List.mem_cons.mp hp with h | h
    · subst h; omega
    · have := ih h; omega

theorem depsOf_length_le {m : List (String × RPkg)} (n : String) :
    (depsOf m n).length ≤ (m.flatMap (·.2.dependencies)).length := by
  unfold depsOf
  cases hf : m.find? (·.1 == n) with
  | none => simp
  | some p =>
    show p.2.dependencies.length ≤ _
    exact length_le_flatMap (fun x => x.2.dependencies) (List.mem_of_find?_eq_some hf)

theorem length_filter_le_of_imp {α : Type} {p q : α → Bool} (l : List α)
    (h : ∀ a, p a = true → q a = true) :
    (l.filter p).length ≤ (l.filter q).length := by
  induction l with
  | nil => simp
  | cons a l ih =>
    cases hp : p a with
    | true =>
      rw [List.filter_cons_of_pos hp, List.filter_cons_of_pos (h a hp)]
      simpa using ih
    | false =>
      rw [List.filter_cons_of_neg (by simp [hp])]
      cases hq : q a with
      | true =>
        rw [List.filter_cons_of_pos hq, List.length_cons]
        omega
      | false =>
        rw [List.filter_cons_of_neg (by simp [hq])]
        exact ih

theorem length_filter_lt_of_mem {α : Type} {p q : α → Bool}
    {l : List α} {a : α} (himp : ∀ x, p x = true → q x = true)
    (ha : a ∈ l) (hqa : q a = true) (hpa : p a = false) :
    (l.filter p).length < (l.filter q).length := by
  induction l with
  | nil => cases ha
  | cons b l ih =>
    rcases List.mem_cons.mp ha with h | h
    · subst h
      rw [List.filter_cons_of_neg (by simp [hpa]), List.filter_cons_of_pos hqa,
        List.length_cons]
      have := length_filter_le_of_imp l himp
      omega
    · cases hpb : p b with
      | true =>
        rw [List.filter_cons_of_pos hpb, List.filter_cons_of_pos (himp b hpb),
          List.length_cons, List.length_cons]
        have := ih h
        omega
      | false =>
        rw [List.filter_cons_of_neg (by simp [hpb])]
        cases hqb : q b with
        | true =>
          rw [List.filter_cons_of_pos hqb, List.length_cons]
          have := ih h
          omega
        | false =>
          rw [List.filter_cons_of_neg (by simp [hqb])]
          exact ih h

/-- The remaining measure of the Kahn loop: unprocessed keys weighted by the
total dependency count, plus the queue length. -/
def kahnMeasure (m : List (String × RPkg)) (queue order : List String) : Nat :=
  ((m.map (·.1)).filter (fun k => !(order.contains k))).length *
    ((m.flatMap (·.2.dependencies)).length + 1) + queue.length

/-- The `while let Some(package_name) = queue.pop_front()` loop of
`resolve_dependencies`: skip processed names, otherwise append to the build
order and process the declared dependencies. -/
def kahnLoop (m : List (String × RPkg)) (queue : List String)
    (deg : String → Nat) (order : List String) : List String :=
  match queue with
  | [] => order
  | name :: rest =>
    if h : name ∈ order then kahnLoop m rest deg order
    else
      kahnLoop m (rest ++ (stepDeps m (depsOf m name) deg []).2)
        (stepDeps m (depsOf m name) deg []).1 (order ++ [name])
termination_by kahnMeasure m queue order
decreasing_by
  · simp only [kahnMeasure, List.length_cons]
    omega
  · simp only [kahnMeasure, List.length_append, List.length_cons]
    have hstep := stepDeps_snd_length m (depsOf m name) deg []
    simp only [List.length_nil, Nat.zero_add] at hstep
    have hdeps := depsOf_length_le (m := m) name
    by_cases hk : isKey m name
    · -- the processed name is an unprocessed key: the weighted count drops
      have hmem : name ∈ m.map (·.1) := by
        unfold isKey at hk
        cases hf : m.find? (·.1 == name) with
        | none => rw [hf] at hk; cases hk
        | some p =>
          have hp := List.mem_of_find?_eq_some hf
          have hpn : p.1 = name := by
            have := List.find?_some hf
            simpa using this
          exact hpn ▸ List.mem_map_of_mem _ hp
      have hlt := length_filter_lt_of_mem
        (p := fun k => !((order ++ [name]).contains k))
        (q := fun k => !(order.contains k))
        (l := m.map (·.1)) (a := name)
        (fun x hx => by
          simp only [List.contains, List.elem_eq_mem, Bool.not_eq_true',
            decide_eq_false_iff_not, List.mem_append, List.mem_singleton] at hx ⊢
          exact fun hmem' => hx (Or.inl hmem'))
        hmem
        (by simp only [List.contains, List.elem_eq_mem, Bool.not_eq_true',
              decide_eq_false_iff_not]
            exact h)
        (by simp [List.contains, List.elem_eq_mem])
      have hmul := Nat.mul_le_mul_right
        ((m.flatMap (·.2.dependencies)).length + 1) hlt
      rw [Nat.succ_mul] at hmul
      omega
    · -- a non-key never entered the map: its dependency list is empty
      have hdeps0 : depsOf m name = [] := by
        unfold depsOf
        unfold isKey at hk
        cases hf : m.find? (·.1 == name) with
        | none => rfl
        | some p => rw [hf] at hk; simp at hk
      rw [hdeps0] at hstep ⊢
      simp only [stepDeps, List.length_nil] at hstep ⊢
      have hle := length_filter_le_of_imp
        (p := fun k => !((order ++ [name]).contains k))
        (q := fun k => !(order.contains k))
        (m.map (·.1))
        (fun x hx => by
          simp only [List.contains, List.elem_eq_mem, Bool.not_eq_true',
            decide_eq_false_iff_not, List.mem_append, List.mem_singleton] at hx ⊢
          exact fun hmem' => hx (Or.inl hmem'))
      have hmul := Nat.mul_le_mul_right
        ((m.flatMap (·.2.dependencies)).length + 1) hle
      omega

/-- The initial queue of the Kahn sort: the map keys of in-degree zero, in
map iteration order. -/
def initialQueue (m : List (String × RPkg)) : List String :=
  m.filterMap fun p => if initialDeg m p.1 = 0 then some p.1 else none

/-- The `build_order` list computed by the Kahn sort of
`resolve_dependencies`. -/
def buildOrderOf (m : List (String × RPkg)) : List String :=
  kahnLoop m (initialQueue m) (initialDeg m) []

/-- `PackageResolver::resolve_dependencies` (`resolver.rs` lines 315–394):
build the package map, fail with `DependencyNotFound` on a missing declared
dependency, Kahn-sort, fail with `CircularDependency` (joining the
unprocessed names) when not all packages were consumed, else return the
packages in the computed order with `build_order` set to the position. -/
def resolveDependencies (packages : List RPkg) :
    Except ResolverError (List RPkg) :=
  let m := packageMap packages
  match findMissingDep m with
  | some d => .error (.dependencyNotFound "unknown" d)
  | none =>
    if (buildOrderOf m).length ≠ m.length then
      .error (.circularDependency (String.intercalate " -> "
        ((m.map (·.1)).filter fun k => !((buildOrderOf m).contains k))))
    else
      .ok ((buildOrderOf m).enum.filterMap fun p =>
        (m.find? (·.1 == p.2)).map fun q => { q.2 with build_order := p.1 })

/-! ### Properties of the Kahn loop -/

theorem isKey_of_mem {m : List (String × RPkg)} {p : String × RPkg}
    (hp : p ∈ m) : isKey m p.1 = true := by
  unfold isKey
  rw [List.find?_isSome]
  exact ⟨p, hp, by simp⟩

theorem find?_eq_of_nodupKeys {m : List (String × RPkg)} {p : String × RPkg}
    (hN : (m.map (·.1)).Nodup) (hp : p ∈ m) :
    m.find? (·.1 == p.1) = some p := by
  induction m with
  | nil => cases hp
  | cons q m ih =>
    rw [List.map_cons, List.nodup_cons] at hN
    rcases List.mem_cons.mp hp with h | h
    · subst h
      rw [List.find?_cons_of_pos _ (by simp)]
    · have hq : q.1 ≠ p.1 := by
        intro he
        exact hN.1 (he ▸ List.mem_map_of_mem _ h)
      rw [List.find?_cons_of_neg _ (by simpa using hq)]
      exact ih hN.2 h

theorem depsOf_eq_of_mem {m : List (String × RPkg)} {p : String × RPkg}
    (hN : (m.map (·.1)).Nodup) (hp : p ∈ m) :
    depsOf m p.1 = p.2.dependencies := by
  unfold depsOf
  rw [find?_eq_of_nodupKeys hN hp]

theorem mem_depsOf {m : List (String × RPkg)} {v d : String}
    (hd : d ∈ depsOf m v) : ∃ p ∈ m, p.1 = v ∧ d ∈ p.2.dependencies := by
  unfold depsOf at hd
  cases hf : m.find? (·.1 == v) with
  | none => rw [hf] at hd; cases hd
  | some p =>
    rw [hf] at hd
    refine ⟨p, List.mem_of_find?_eq_some hf, ?_, hd⟩
    have := List.find?_some hf
    simpa using this

theorem stepDeps_fst (m : List (String × RPkg)) :
    ∀ (ds : List String) (deg : String → Nat) (acc : List String) (v : String),
      (stepDeps m ds deg acc).1 v =
        if isKey m v then deg v - ds.count v else deg v := by
  intro ds
  induction ds with
  | nil =>
    intro deg acc v
    simp [stepDeps]
  | cons d ds ih =>
    intro deg acc v
    unfold stepDeps
    by_cases hk : isKey m d
    · rw [if_pos hk, ih]
      by_cases hv : isKey m v
      · rw [if_pos hv, if_pos hv]
        by_cases hvd : v = d
        · subst hvd
          rw [if_pos rfl, List.count_cons_self]
          omega
        · rw [if_neg hvd, List.count_cons_of_ne (by simpa using hvd)]
      · rw [if_neg hv, if_neg hv]
        have hvd : ¬ v = d := fun he => hv (he ▸ hk)
        rw [if_neg hvd]
    · rw [if_neg hk, ih]
      by_cases hv : isKey m v
      · rw [if_pos hv, if_pos hv]
        have hvd : ¬ v = d := fun he => hk (he ▸ hv)
        rw [List.count_cons_of_ne (by simpa using hvd)]
      · rw [if_neg hv, if_neg hv]

theorem stepDeps_fst_le (m : List (String × RPkg)) (ds : List String)
    (deg : String → Nat) (acc : List String) (v : String) :
    (stepDeps m ds deg acc).1 v ≤ deg v := by
  rw [stepDeps_fst]
  by_cases hv : isKey m v
  · rw [if_pos hv]; omega
  · rw [if_neg hv]

theorem stepDeps_acc_subset (m : List (String × RPkg)) :
    ∀ (ds : List String) (deg : String → Nat) (acc : List String),
      acc ⊆ (stepDeps m ds deg acc).2 := by
  intro ds
  induction ds with
  | nil => intro deg acc; simp [stepDeps]
  | cons d ds ih =>
    intro deg acc
    unfold stepDeps
    by_cases hk : isKey m d
    · rw [if_pos hk]
      by_cases hz : deg d - 1 = 0
      · rw [if_pos hz]
        exact fun x hx => ih _ _ (List.mem_append_left _ hx)
      · rw [if_neg hz]
        exact ih _ _
    · rw [if_neg hk]
      exact ih _ _

theorem stepDeps_snd_mem (m : List (String × RPkg)) :
    ∀ (ds : List String) (deg : String → Nat) (acc : List String) (v : String),
      v ∈ (stepDeps m ds deg acc).2 →
        v ∈ acc ∨ (isKey m v = true ∧ v ∈ ds) := by
  intro ds
  induction ds with
  | nil =>
    intro deg acc v hv
    simp [stepDeps] at hv
    exact Or.inl hv
  | cons d ds ih =>
    intro deg acc v hv
    unfold stepDeps at hv
    by_cases hk : isKey m d
    · rw [if_pos hk] at hv
      by_cases hz : deg d - 1 = 0
      · rw [if_pos hz] at hv
        rcases ih _ _ v hv with h | h
        · rcases List.mem_append.mp h with h' | h'
          · exact Or.inl h'
          · rw [List.mem_singleton] at h'
            exact Or.inr ⟨h' ▸ hk, h' ▸ List.mem_cons_self ..⟩
        · exact Or.inr ⟨h.1, List.mem_cons_of_mem _ h.2⟩
      · rw [if_neg hz] at hv
        rcases ih _ _ v hv with h | h
        · exact Or.inl h
        · exact Or.inr ⟨h.1, List.mem_cons_of_mem _ h.2⟩
    · rw [if_neg hk] at hv
      rcases ih _ _ v hv with h | h
      · exact Or.inl h
      · exact Or.inr ⟨h.1, List.mem_cons_of_mem _ h.2⟩

theorem stepDeps_snd_zero (m : List (String × RPkg)) :
    ∀ (ds : List String) (deg : String → Nat) (acc : List String) (v : String),
      v ∈ (stepDeps m ds deg acc).2 →
        v ∈ acc ∨ (stepDeps m ds deg acc).1 v = 0 := by
  intro ds
  induction ds with
  | nil =>
    intro deg acc v hv
    simp [stepDeps] at hv ⊢
    exact Or.inl hv
  | cons d ds ih =>
    intro deg acc v hv
    unfold stepDeps at hv ⊢
    by_cases hk : isKey m d
    · rw [if_pos hk] at hv ⊢
      by_cases hz : deg d - 1 = 0
      · rw [if_pos hz] at hv ⊢
        rcases ih _ _ v hv with h | h
        · rcases List.mem_append.mp h with h' | h'
          · exact Or.inl h'
          · rw [List.mem_singleton] at h'
            subst h'
            right
            have := stepDeps_fst_le m ds
              (fun x => if x = v then deg v - 1 else deg x) (acc ++ [v]) v
            simpa [hz] using this
        · exact Or.inr h
      · rw [if_neg hz] at hv ⊢
        exact ih _ _ v hv
    · rw [if_neg hk] at hv ⊢
      exact ih _ _ v hv

theorem stepDeps_mem_of_zero (m : List (String × RPkg)) :
    ∀ (ds : List String) (deg : String → Nat) (acc : List String) (v : String),
      isKey m v = true → (stepDeps m ds deg acc).1 v = 0 → deg v ≠ 0 →
        v ∈ (stepDeps m ds deg acc).2 := by
  intro ds
  induction ds with
  | nil =>
    intro deg acc v _ hfin hdeg
    simp [stepDeps] at hfin
    exact absurd hfin hdeg
  | cons d ds ih =>
    intro deg acc v hkv hfin hdeg
    unfold stepDeps at hfin ⊢
    by_cases hk : isKey m d
    · rw [if_pos hk] at hfin ⊢
      by_cases hvd : v = d
      · subst hvd
        by_cases hz : deg v - 1 = 0
        · rw [if_pos hz] at hfin ⊢
          exact stepDeps_acc_subset m ds _ _
            (List.mem_append_right _ (List.mem_singleton.mpr rfl))
        · rw [if_neg hz] at hfin ⊢
          exact ih _ _ v hkv hfin (by simpa using hz)
      · have hdeg' : (fun x => if x = d then deg d - 1 else deg x) v ≠ 0 := by
          simpa [hvd] using hdeg
        by_cases hz : deg d - 1 = 0
        · rw [if_pos hz] at hfin ⊢
          exact ih _ _ v hkv hfin hdeg'
        · rw [if_neg hz] at hfin ⊢
          exact ih _ _ v hkv hfin hdeg'
    · rw [if_neg hk] at hfin ⊢
      exact ih _ _ v hkv hfin hdeg

/-- The number of occurrences of `v` among the dependency lists of the
not-yet-processed packages — the value the mutable `in_degree` map holds for
`v` during the loop. -/
def residual (m : List (String × RPkg)) (order : List String) (v : String) : Nat :=
  ((m.filter (fun p => !(order.contains p.1))).flatMap (·.2.dependencies)).count v

theorem residual_nil (m : List (String × RPkg)) (v : String) :
    residual m [] v = initialDeg m v := by
  unfold residual initialDeg
  congr 1
  congr 1
  exact List.filter_eq_self.mpr (fun p _ => rfl)

theorem contains_eq_false_iff {l : List String} {a : String} :
    (l.contains a = false) ↔ a ∉ l := by
  rw [List.contains, List.elem_eq_mem]
  simp

theorem residual_split {m : List (String × RPkg)}
    (hN : (m.map (·.1)).Nodup) {name : String} {order : List String}
    (hno : name ∉ order) (hk : isKey m name = true) (v : String) :
    residual m order v =
      (depsOf m name).count v + residual m (order ++ [name]) v := by
  induction m with
  | nil => simp [isKey] at hk
  | cons q m ih =>
    rw [List.map_cons, List.nodup_cons] at hN
    by_cases hq : q.1 = name
    · have hPq : (order.contains q.1) = false := by
        rw [List.contains, List.elem_eq_mem]
        simp [hq ▸ hno]
      have hPq' : ((order ++ [name]).contains q.1) = true := by
        rw [List.contains, List.elem_eq_mem]
        simp [hq]
      have hf1 : (q :: m).filter (fun p => !(order.contains p.1)) =
          q :: m.filter (fun p => !(order.contains p.1)) := by
        rw [List.filter_cons, hPq]
        rfl
      have hf2 : (q :: m).filter (fun p => !((order ++ [name]).contains p.1)) =
          m.filter (fun p => !((order ++ [name]).contains p.1)) := by
        rw [List.filter_cons, hPq']
        rfl
      have hdeps : depsOf (q :: m) name = q.2.dependencies := by
        unfold depsOf
        rw [List.find?_cons_of_pos _ (by simpa using hq)]
      have hfilter_eq : m.filter (fun p => !((order ++ [name]).contains p.1)) =
          m.filter (fun p => !(order.contains p.1)) := by
        apply List.filter_congr
        intro p hp
        have hpn : p.1 ≠ name := by
          intro he
          exact hN.1 (hq ▸ he ▸ List.mem_map_of_mem _ hp)
        rw [List.contains, List.contains, List.elem_eq_mem, List.elem_eq_mem]
        simp [hpn]
      rw [residual, residual, hf1, hf2, hdeps, hfilter_eq, List.flatMap_cons,
        List.count_append]
    · have hdeps : depsOf (q :: m) name = depsOf m name := by
        unfold depsOf
        rw [List.find?_cons_of_neg _ (by simpa using hq)]
      have hk' : isKey m name = true := by
        unfold isKey at hk ⊢
        rw [List.find?_cons_of_neg _ (by simpa using hq)] at hk
        exact hk
      have hcont : ((order ++ [name]).contains q.1) = (order.contains q.1) := by
        rw [List.contains, List.contains, List.elem_eq_mem, List.elem_eq_mem]
        simp [hq]
      have ihm := ih hN.2 hk'
      cases hP : (order.contains q.1) with
      | true =>
        have hf1 : (q :: m).filter (fun p => !(order.contains p.1)) =
            m.filter (fun p => !(order.contains p.1)) := by
          rw [List.filter_cons, hP]
          rfl
        have hf2 : (q :: m).filter (fun p => !((order ++ [name]).contains p.1)) =
            m.filter (fun p => !((order ++ [name]).contains p.1)) := by
          rw [List.filter_cons, hcont, hP]
          rfl
        rw [residual, residual, hf1, hf2, hdeps]
        exact ihm
      | false =>
        have hf1 : (q :: m).filter (fun p => !(order.contains p.1)) =
            q :: m.filter (fun p => !(order.contains p.1)) := by
          rw [List.filter_cons, hP]
          rfl
        have hf2 : (q :: m).filter (fun p => !((order ++ [name]).contains p.1)) =
            q :: m.filter (fun p => !((order ++ [name]).contains p.1)) := by
          rw [List.filter_cons, hcont, hP]
          rfl
        rw [residual, residual, hf1, hf2, hdeps, List.flatMap_cons,
          List.flatMap_cons, List.count_append, List.count_append]
        rw [residual, residual] at ihm
        omega

theorem residual_ne_zero_elim {m : List (String × RPkg)} {order : List String}
    {v : String} (h : residual m order v ≠ 0) :
    ∃ p ∈ m, p.1 ∉ order ∧ v ∈ p.2.dependencies := by
  unfold residual at h
  have hv : v ∈ (m.filter (fun p => !(order.contains p.1))).flatMap
      (·.2.dependencies) := by
    by_contra hc
    exact h (List.count_eq_zero.mpr hc)
  rw [List.mem_flatMap] at hv
  obtain ⟨p, hp, hvp⟩ := hv
  rw [List.mem_filter] at hp
  refine ⟨p, hp.1, ?_, hvp⟩
  have := hp.2
  simp only [Bool.not_eq_true'] at this
  exact contains_eq_false_iff.mp this

theorem residual_zero_not_dep {m : List (String × RPkg)} {order : List String}
    {v : String} (h : residual m order v = 0) :
    ∀ p ∈ m, p.1 ∉ order → v ∉ p.2.dependencies := by
  intro p hp hpo hvp
  unfold residual at h
  rw [List.count_eq_zero] at h
  apply h
  rw [List.mem_flatMap]
  refine ⟨p, ?_, hvp⟩
  rw [List.mem_filter]
  refine ⟨hp, ?_⟩
  simp only [Bool.not_eq_true']
  exact contains_eq_false_iff.mpr hpo

/-- Positional closure of a processed list: every dependent of the package at
position `i` was processed strictly earlier. -/
def OrderClosed (m : List (String × RPkg)) (order : List String) : Prop :=
  ∀ (i : Nat) (hi : i < order.length) (p : String × RPkg), p ∈ m →
    order.get ⟨i, hi⟩ ∈ p.2.dependencies → p.1 ∈ order.take i

theorem indexOf_lt_of_mem_take {l : List String} {x : String} :
    ∀ {i : Nat}, x ∈ l.take i → l.indexOf x < i := by
  induction l with
  | nil => intro i h; simp at h
  | cons a t ih =>
    intro i h
    cases i with
    | zero => simp at h
    | succ i =>
      rw [List.take_succ_cons] at h
      rcases List.mem_cons.mp h with h' | h'
      · subst h'
        simp [List.indexOf_cons_self]
      · by_cases hax : x = a
        · subst hax
          simp [List.indexOf_cons_self]
        · rw [List.indexOf_cons_ne _ (by simpa using Ne.symm hax)]
          have := ih h'
          omega

/-- `a` depends on `b`: `b` occurs in the declared dependencies of the map
entry for `a`. -/
def depOn (m : List (String × RPkg)) (a b : String) : Prop :=
  b ∈ depsOf m a

/-- The dependency graph of the map contains a (directed) cycle. -/
def HasCycle (m : List (String × RPkg)) : Prop :=
  ∃ v, Relation.TransGen (depOn m) v v

theorem depOn_step {m : List (String × RPkg)} {R : List String}
    (hC : OrderClosed m R) {a b : String} (hab : depOn m a b) (hb : b ∈ R) :
    a ∈ R ∧ R.indexOf a < R.indexOf b := by
  obtain ⟨p, hp, hpa, hbdeps⟩ := mem_depsOf hab
  have hi : R.indexOf b < R.length := List.indexOf_lt_length.mpr hb
  have hget : R.get ⟨R.indexOf b, hi⟩ = b := List.indexOf_get hi
  have hc := hC (R.indexOf b) hi p hp (by rw [hget]; exact hbdeps)
  rw [hpa] at hc
  exact ⟨List.take_subset _ _ hc, indexOf_lt_of_mem_take hc⟩

theorem transGen_indexOf_lt {m : List (String × RPkg)} {R : List String}
    (hC : OrderClosed m R) {a b : String}
    (h : Relation.TransGen (depOn m) a b) (hb : b ∈ R) :
    a ∈ R ∧ R.indexOf a < R.indexOf b := by
  induction h with
  | single hab => exact depOn_step hC hab hb
  | tail _ hbc ih =>
    have hstep := depOn_step hC hbc hb
    have := ih hstep.1
    exact ⟨this.1, lt_trans this.2 hstep.2⟩

theorem cycle_node_not_mem {m : List (String × RPkg)} {R : List String}
    (hC : OrderClosed m R) {v : String}
    (hcyc : Relation.TransGen (depOn m) v v) : v ∉ R := by
  intro hv
  exact absurd (transGen_indexOf_lt hC hcyc hv).2 (lt_irrefl _)

theorem exists_cycle_of_forall_dependent {m : List (String × RPkg)}
    {L : List String} (hne : L ≠ [])
    (h : ∀ v ∈ L, ∃ u ∈ L, depOn m u v) : HasCycle m := by
  classical
  obtain ⟨v0, hv0⟩ : ∃ v, v ∈ L := by
    cases L with
    | nil => exact absurd rfl hne
    | cons a t => exact ⟨a, List.mem_cons_self ..⟩
  let F : {v // v ∈ L} → {v // v ∈ L} := fun x =>
    ⟨Classical.choose (h x.1 x.2), (Classical.choose_spec (h x.1 x.2)).1⟩
  have hF : ∀ x : {v // v ∈ L}, depOn m (F x).1 x.1 :=
    fun x => (Classical.choose_spec (h x.1 x.2)).2
  let g : Nat → {v // v ∈ L} := fun n => F^[n] ⟨v0, hv0⟩
  have hstep : ∀ n, depOn m (g (n + 1)).1 (g n).1 := by
    intro n
    have hg : g (n + 1) = F (g n) := Function.iterate_succ_apply' F n _
    rw [hg]
    exact hF (g n)
  have hchain : ∀ i d, Relation.TransGen (depOn m) (g (i + d + 1)).1 (g i).1 := by
    intro i d
    induction d with
    | zero => exact Relation.TransGen.single (hstep i)
    | succ d ih =>
      have h1 : depOn m (g (i + d + 1 + 1)).1 (g (i + d + 1)).1 :=
        hstep (i + d + 1)
      have h2 : Relation.TransGen (depOn m) (g (i + d + 1 + 1)).1 (g i).1 :=
        Relation.TransGen.head h1 ih
      have he : i + (d + 1) + 1 = i + d + 1 + 1 := by omega
      rw [he]
      exact h2
  have hmaps : ∀ n ∈ Finset.range (L.length + 1), (g n).1 ∈ L.toFinset :=
    fun n _ => List.mem_toFinset.mpr (g n).2
  have hcard : L.toFinset.card < (Finset.range (L.length + 1)).card := by
    rw [Finset.card_range]
    exact Nat.lt_succ_of_le (List.toFinset_card_le L)
  obtain ⟨i, _, j, _, hij, heq⟩ :=
    Finset.exists_ne_map_eq_of_card_lt_of_maps_to hcard hmaps
  rcases Nat.lt_or_ge i j with hlt | hge
  · have hc := hchain i (j - i - 1)
    rw [show i + (j - i - 1) + 1 = j from by omega] at hc
    exact ⟨(g i).1, heq ▸ hc⟩
  · have hlt' : j < i := by omega
    have hc := hchain j (i - j - 1)
    rw [show j + (i - j - 1) + 1 = i from by omega] at hc
    exact ⟨(g j).1, heq ▸ hc⟩

/-- The loop invariant of Kahn's sort as implemented: the degree map counts
the dependency occurrences among unprocessed packages, queued names are keys
with degree zero, every key whose degree reached zero is queued or processed,
and the processed list is positionally closed. -/
structure KahnInv (m : List (String × RPkg)) (queue : List String)
    (deg : String → Nat) (order : List String) : Prop where
  degEq : ∀ v, deg v = residual m order v
  queueKeys : ∀ v ∈ queue, isKey m v = true
  queueZero : ∀ v ∈ queue, deg v = 0
  zeroInQueue : ∀ p ∈ m, deg p.1 = 0 → p.1 ∈ queue ∨ p.1 ∈ order
  closed : OrderClosed m order
  orderKeys : ∀ v ∈ order, isKey m v = true
  orderNodup : order.Nodup

theorem kahnLoop_spec {m : List (String × RPkg)}
    (hN : (m.map (·.1)).Nodup)
    (hM : ∀ p ∈ m, ∀ d ∈ p.2.dependencies, isKey m d = true)
    (queue : List String) (deg : String → Nat) (order : List String)
    (hI : KahnInv m queue deg order) :
    OrderClosed m (kahnLoop m queue deg order) ∧
    (∀ v ∈ kahnLoop m queue deg order, isKey m v = true) ∧
    (kahnLoop m queue deg order).Nodup ∧
    (∀ p ∈ m, p.1 ∉ kahnLoop m queue deg order →
      residual m (kahnLoop m queue deg order) p.1 ≠ 0) := by
  revert hI
  induction queue, deg, order using kahnLoop.induct m with
  | case1 deg order =>
    intro hI
    simp only [kahnLoop]
    refine ⟨hI.closed, hI.orderKeys, hI.orderNodup, ?_⟩
    intro p hp hpo h0
    have hd0 : deg p.1 = 0 := by rw [hI.degEq p.1]; exact h0
    rcases hI.zeroInQueue p hp hd0 with hq | ho
    · cases hq
    · exact hpo ho
  | case2 deg order name rest hmem ih =>
    intro hI
    simp only [kahnLoop, dif_pos hmem]
    apply ih
    refine ⟨hI.degEq, fun v hv => hI.queueKeys v (List.mem_cons_of_mem _ hv),
      fun v hv => hI.queueZero v (List.mem_cons_of_mem _ hv), ?_,
      hI.closed, hI.orderKeys, hI.orderNodup⟩
    intro p hp h0
    rcases hI.zeroInQueue p hp h0 with hq | ho
    · rcases List.mem_cons.mp hq with he | hr
      · exact Or.inr (he ▸ hmem)
      · exact Or.inl hr
    · exact Or.inr ho
  | case3 deg order name rest hmem ih =>
    intro hI
    simp only [kahnLoop, dif_neg hmem]
    apply ih
    have hkname : isKey m name = true := hI.queueKeys name (List.mem_cons_self ..)
    have hdegname : deg name = 0 := hI.queueZero name (List.mem_cons_self ..)
    have hres0 : residual m order name = 0 := by
      rw [← hI.degEq name]; exact hdegname
    have hsplit := residual_split hN hmem hkname
    constructor
    · -- degree accounting after the decrements
      intro v
      rw [stepDeps_fst]
      by_cases hv : isKey m v
      · rw [if_pos hv, hI.degEq v, hsplit v]
        omega
      · rw [if_neg hv, hI.degEq v, hsplit v]
        have hc0 : (depsOf m name).count v = 0 := by
          rw [List.count_eq_zero]
          intro hvds
          obtain ⟨p, hp, _, hvd⟩ := mem_depsOf hvds
          exact absurd (hM p hp v hvd) (by simp [hv])
        omega
    · -- queued names are keys
      intro v hv
      rcases List.mem_append.mp hv with h | h
      · exact hI.queueKeys v (List.mem_cons_of_mem _ h)
      · rcases stepDeps_snd_mem m _ deg [] v h with h' | h'
        · cases h'
        · exact h'.1
    · -- queued names have degree zero
      intro v hv
      rcases List.mem_append.mp hv with h | h
      · have h0 : deg v = 0 := hI.queueZero v (List.mem_cons_of_mem _ h)
        have hle := stepDeps_fst_le m (depsOf m name) deg [] v
        omega
      · rcases stepDeps_snd_zero m _ deg [] v h with h' | h'
        · cases h'
        · exact h'
    · -- zero-degree keys are queued or processed
      intro p hp h0
      by_cases hd : deg p.1 = 0
      · rcases hI.zeroInQueue p hp hd with hq | ho
        · rcases List.mem_cons.mp hq with he | hr
          · exact Or.inr (List.mem_append_right _ (he ▸ List.mem_singleton.mpr rfl))
          · exact Or.inl (List.mem_append_left _ hr)
        · exact Or.inr (List.mem_append_left _ ho)
      · exact Or.inl (List.mem_append_right _
          (stepDeps_mem_of_zero m _ deg [] p.1 (isKey_of_mem hp) h0 hd))
    · -- positional closure extends to the appended name
      intro i hi p hp hget
      have hi' : i < order.length + 1 := by
        rw [List.length_append, List.length_singleton] at hi
        exact hi
      by_cases hio : i < order.length
      · have hgeteq : (order ++ [name]).get ⟨i, hi⟩ = order.get ⟨i, hio⟩ := by
          simp only [List.get_eq_getElem]
          exact List.getElem_append_left hio
        rw [hgeteq] at hget
        have hold := hI.closed i hio p hp hget
        have htake : (order ++ [name]).take i = order.take i :=
          List.take_append_of_le_length (by omega)
        rw [htake]
        exact hold
      · have hieq : i = order.length := by omega
        have hgeteq : (order ++ [name]).get ⟨i, hi⟩ = name := by
          simp only [List.get_eq_getElem]
          exact List.getElem_concat_length order name i hieq _
        rw [hgeteq] at hget
        have hpo : p.1 ∈ order := by
          by_contra hpo
          exact residual_zero_not_dep hres0 p hp hpo hget
        rw [hieq, List.take_left]
        exact hpo
    · -- processed names are keys
      intro v hv
      rcases List.mem_append.mp hv with h | h
      · exact hI.orderKeys v h
      · exact (List.mem_singleton.mp h) ▸ hkname
    · -- the processed list stays duplicate-free
      rw [List.nodup_append]
      exact ⟨hI.orderNodup, List.nodup_singleton _,
        fun a ha hb => hmem ((List.mem_singleton.mp hb) ▸ ha)⟩

theorem kahnInv_initial (m : List (String × RPkg)) :
    KahnInv m (initialQueue m) (initialDeg m) [] := by
  constructor
  · intro v
    rw [residual_nil]
  · intro v hv
    rw [initialQueue, List.mem_filterMap] at hv
    obtain ⟨p, hp, hf⟩ := hv
    by_cases h0 : initialDeg m p.1 = 0
    · rw [if_pos h0] at hf
      cases hf
      exact isKey_of_mem hp
    · rw [if_neg h0] at hf
      cases hf
  · intro v hv
    rw [initialQueue, List.mem_filterMap] at hv
    obtain ⟨p, hp, hf⟩ := hv
    by_cases h0 : initialDeg m p.1 = 0
    · rw [if_pos h0] at hf
      cases hf
      exact h0
    · rw [if_neg h0] at hf
      cases hf
  · intro p hp h0
    left
    rw [initialQueue, List.mem_filterMap]
    exact ⟨p, hp, by rw [if_pos h0]⟩
  · intro i hi
    exact absurd hi (Nat.not_lt_zero i)
  · intro v hv
    cases hv
  · exact List.nodup_nil

theorem upsert_keys (m : List (String × RPkg)) (k : String) (v : RPkg) :
    (upsert m k v).map (·.1) =
      if m.any (·.1 == k) then m.map (·.1) else m.map (·.1) ++ [k] := by
  unfold upsert
  by_cases h : m.any (·.1 == k) = true
  · rw [if_pos h, if_pos h, List.map_map]
    apply List.map_congr_left
    intro p _
    by_cases hpk : (p.1 == k) = true
    · simp only [Function.comp, hpk, if_true]
      exact ((by simpa using hpk : p.1 = k)).symm
    · simp [Function.comp, hpk]
  · rw [if_neg h, if_neg h, List.map_append]
    rfl

theorem packageMap_nodupKeys (packages : List RPkg) :
    ((packageMap packages).map (·.1)).Nodup := by
  unfold packageMap
  suffices h : ∀ acc : List (String × RPkg), (acc.map (·.1)).Nodup →
      ((packages.foldl (fun m p => upsert m p.name p) acc).map (·.1)).Nodup by
    exact h [] List.nodup_nil
  induction packages with
  | nil => intro acc hacc; exact hacc
  | cons p ps ih =>
    intro acc hacc
    rw [List.foldl_cons]
    apply ih
    rw [upsert_keys]
    by_cases h : acc.any (·.1 == p.name) = true
    · rw [if_pos h]
      exact hacc
    · rw [if_neg h]
      rw [List.nodup_append]
      refine ⟨hacc, List.nodup_singleton _, ?_⟩
      intro a ha hb
      rw [List.mem_singleton] at hb
      subst hb
      rw [List.mem_map] at ha
      obtain ⟨q, hq, hq1⟩ := ha
      exact h (List.any_eq_true.mpr ⟨q, hq, by simp [hq1]⟩)

/-- Some declared dependency of some package is not a key of the package
map. -/
def Missing (m : List (String × RPkg)) : Prop :=
  ∃ p ∈ m, ∃ d ∈ p.2.dependencies, isKey m d = false

theorem any_eq_isKey (m : List (String × RPkg)) (d : String) :
    m.any (·.1 == d) = isKey m d := by
  rw [Bool.eq_iff_iff, List.any_eq_true]
  unfold isKey
  rw [List.find?_isSome]

theorem isKey_mem_keys {m : List (String × RPkg)} {v : String}
    (h : isKey m v = true) : v ∈ m.map (·.1) := by
  unfold isKey at h
  rw [List.find?_isSome] at h
  obtain ⟨p, hp, hpv⟩ := h
  exact (by simpa using hpv : p.1 = v) ▸ List.mem_map_of_mem _ hp

theorem findMissingDep_none_iff (m : List (String × RPkg)) :
    findMissingDep m = none ↔ ¬ Missing m := by
  unfold findMissingDep Missing
  rw [List.findSome?_eq_none_iff]
  constructor
  · rintro h ⟨p, hp, d, hd, hk⟩
    have hnone := h p hp
    rw [List.find?_eq_none] at hnone
    have hnd := hnone d hd
    have hA : m.any (·.1 == d) = true := by
      cases hA : m.any (·.1 == d) with
      | true => rfl
      | false => exact absurd (by rw [hA]; rfl) hnd
    rw [any_eq_isKey, hk] at hA
    cases hA
  · intro h p hp
    rw [List.find?_eq_none]
    intro d hd hpred
    apply h
    refine ⟨p, hp, d, hd, ?_⟩
    rw [← any_eq_isKey]
    simpa using hpred

theorem findMissingDep_some {m : List (String × RPkg)} {d : String}
    (h : findMissingDep m = some d) :
    (∃ p ∈ m, d ∈ p.2.dependencies) ∧ isKey m d = false := by
  obtain ⟨p, hp, hf⟩ := List.exists_of_findSome?_eq_some h
  have hd := List.mem_of_find?_eq_some hf
  have hpred := List.find?_some hf
  refine ⟨⟨p, hp, hd⟩, ?_⟩
  rw [← any_eq_isKey]
  simpa using hpred

theorem depOn_isKey_left {m : List (String × RPkg)} {a b : String}
    (h : depOn m a b) : isKey m a = true := by
  unfold depOn depsOf at h
  unfold isKey
  cases hf : m.find? (·.1 == a) with
  | none => rw [hf] at h; cases h
  | some p => simp

/-- **C1** (behaviour of the code at the failing input): for the acyclic
two-package set in which `a` declares a dependency on `b`,
`resolve_dependencies` returns `[a, b]` — the dependent `a` at position 0
*before* its dependency `b` at position 1, so `position(b) < position(a)`
fails.  The in-degree computed by the code counts *dependents*, so the
queue-based sort emits every package before its declared dependencies
(reverse topological order); `lib.rs` then builds packages in exactly this
order. -/
theorem resolveDependencies_emits_dependents_first :
    resolveDependencies [⟨"a", ["b"], 0⟩, ⟨"b", [], 0⟩] =
      .ok [⟨"a", ["b"], 0⟩, ⟨"b", [], 1⟩] ∧
    "b" ∈ (RPkg.mk "a" ["b"] 0).dependencies := by
  constructor
  · simp [resolveDependencies, buildOrderOf, initialQueue, kahnLoop, stepDeps,
      packageMap, upsert, findMissingDep, initialDeg, depsOf, isKey]
    rfl
  · exact List.mem_singleton.mpr rfl

/-- Counterexample to **C5** as stated: on an input whose dependency graph
contains the cycle `p ↔ q` *and* where `p` also declares the missing
dependency `r`, `resolve_dependencies` fails with `DependencyNotFound`, not
`CircularDependency` — the missing-dependency check runs before the sort, so
"fails with CircularDependency exactly when the graph contains a cycle" is
false as stated. -/
theorem resolveDependencies_missing_beats_cycle :
    resolveDependencies [⟨"p", ["q", "r"], 0⟩, ⟨"q", ["p"], 0⟩] =
      .error (.dependencyNotFound "unknown" "r") ∧
    HasCycle (packageMap [⟨"p", ["q", "r"], 0⟩, ⟨"q", ["p"], 0⟩]) := by
  constructor
  · simp [resolveDependencies, packageMap, upsert, findMissingDep, isKey]
  · refine ⟨"p", ?_⟩
    have h1 : depOn (packageMap [⟨"p", ["q", "r"], 0⟩, ⟨"q", ["p"], 0⟩]) "p" "q" := by
      unfold depOn depsOf packageMap upsert
      decide
    have h2 : depOn (packageMap [⟨"p", ["q", "r"], 0⟩, ⟨"q", ["p"], 0⟩]) "q" "p" := by
      unfold depOn depsOf packageMap upsert
      decide
    exact Relation.TransGen.head h1 (Relation.TransGen.single h2)

/-- **C5** (amended).  `resolve_dependencies` fails with `DependencyNotFound`
whenever some declared dependency is not in the package set (this check runs
before cycle detection), and fails with `CircularDependency` exactly when
every declared dependency is present and the dependency graph contains a
cycle; for `[{p, deps [q]}, {q, deps [p]}]` it returns `CircularDependency`
naming both `p` and `q`. -/
theorem resolveDependencies_error_characterisation (packages : List RPkg) :
    (Missing (packageMap packages) →
      ∃ d, resolveDependencies packages =
          .error (.dependencyNotFound "unknown" d) ∧
        (∃ p ∈ packageMap packages, d ∈ p.2.dependencies) ∧
        isKey (packageMap packages) d = false) ∧
    ((∃ s, resolveDependencies packages = .error (.circularDependency s)) ↔
      ¬ Missing (packageMap packages) ∧ HasCycle (packageMap packages)) ∧
    resolveDependencies [⟨"p", ["q"], 0⟩, ⟨"q", ["p"], 0⟩] =
      .error (.circularDependency "p -> q") := by
  have hconc : resolveDependencies [⟨"p", ["q"], 0⟩, ⟨"q", ["p"], 0⟩] =
      .error (.circularDependency "p -> q") := by
    simp [resolveDependencies, buildOrderOf, initialQueue, kahnLoop, stepDeps,
      packageMap, upsert, findMissingDep, initialDeg, depsOf, isKey]
    rfl
  have hN := packageMap_nodupKeys packages
  cases hF : findMissingDep (packageMap packages) with
  | some d =>
    have hprops := findMissingDep_some hF
    have hres : resolveDependencies packages =
        .error (.dependencyNotFound "unknown" d) := by
      simp only [resolveDependencies, hF]
    have hMiss : Missing (packageMap packages) := by
      obtain ⟨⟨p, hp, hd⟩, hk⟩ := hprops
      exact ⟨p, hp, d, hd, hk⟩
    refine ⟨fun _ => ⟨d, hres, hprops⟩, ⟨?_, ?_⟩, hconc⟩
    · rintro ⟨s, hs⟩
      rw [hres] at hs
      simp at hs
    · rintro ⟨hnm, _⟩
      exact absurd hMiss hnm
  | none =>
    have hnM : ¬ Missing (packageMap packages) :=
      (findMissingDep_none_iff _).mp hF
    have hM : ∀ p ∈ packageMap packages, ∀ d ∈ p.2.dependencies,
        isKey (packageMap packages) d = true := by
      intro p hp d hd
      cases hk : isKey (packageMap packages) d with
      | true => rfl
      | false => exact absurd ⟨p, hp, d, hd, hk⟩ hnM
    obtain ⟨hC, hRkeys, hRnd, hres⟩ :=
      kahnLoop_spec hN hM (initialQueue (packageMap packages))
        (initialDeg (packageMap packages)) [] (kahnInv_initial _)
    rw [show kahnLoop (packageMap packages)
        (initialQueue (packageMap packages))
        (initialDeg (packageMap packages)) [] =
        buildOrderOf (packageMap packages) from rfl] at hC hRkeys hRnd hres
    have hRsub : buildOrderOf (packageMap packages) ⊆
        (packageMap packages).map (·.1) :=
      fun v hv => isKey_mem_keys (hRkeys v hv)
    have hRlen : (buildOrderOf (packageMap packages)).length ≤
        (packageMap packages).length := by
      have h1 := (List.subperm_of_subset hRnd hRsub).length_le
      rw [List.length_map] at h1
      exact h1
    by_cases hlen : (buildOrderOf (packageMap packages)).length =
        (packageMap packages).length
    · -- every package was consumed: success, and no cycle can exist
      have hok : ∀ s, resolveDependencies packages ≠
          .error (.circularDependency s) := by
        intro s hs
        revert hs
        simp only [resolveDependencies, hF]
        rw [if_neg (fun h => h hlen)]
        simp
      have hperm : List.Perm (buildOrderOf (packageMap packages))
          ((packageMap packages).map (·.1)) := by
        apply (List.subperm_of_subset hRnd hRsub).perm_of_length_le
        rw [List.length_map]
        omega
      have hkeysub : (packageMap packages).map (·.1) ⊆
          buildOrderOf (packageMap packages) := hperm.symm.subset
      refine ⟨fun hMiss => absurd hMiss hnM, ⟨?_, ?_⟩, hconc⟩
      · rintro ⟨s, hs⟩
        exact absurd hs (hok s)
      · rintro ⟨_, v, hcyc⟩
        have hvkey : isKey (packageMap packages) v = true := by
          rcases Relation.TransGen.head'_iff.mp hcyc with ⟨b, hvb, _⟩
          exact depOn_isKey_left hvb
        have hvR : v ∈ buildOrderOf (packageMap packages) :=
          hkeysub (isKey_mem_keys hvkey)
        exact absurd hvR (cycle_node_not_mem hC hcyc)
    · -- unconsumed packages remain: CircularDependency, and a cycle exists
      have hcircErr : resolveDependencies packages =
          .error (.circularDependency (String.intercalate " -> "
            (((packageMap packages).map (·.1)).filter
              fun k => !((buildOrderOf (packageMap packages)).contains k)))) := by
        simp only [resolveDependencies, hF]
        rw [if_pos hlen]
      have hLne : List.filter
          (fun k => !((buildOrderOf (packageMap packages)).contains k))
          ((packageMap packages).map (·.1)) ≠ [] := by
        intro hnil
        have hall : (packageMap packages).map (·.1) ⊆
            buildOrderOf (packageMap packages) := by
          intro k hk
          by_contra hkR
          have hkL : k ∈ List.filter
              (fun k => !((buildOrderOf (packageMap packages)).contains k))
              ((packageMap packages).map (·.1)) := by
            rw [List.mem_filter]
            refine ⟨hk, ?_⟩
            simp only [Bool.not_eq_true']
            exact contains_eq_false_iff.mpr hkR
          rw [hnil] at hkL
          cases hkL
        have h2 := (List.subperm_of_subset hN hall).length_le
        rw [List.length_map] at h2
        omega
      have hLdep : ∀ v, v ∈ List.filter
          (fun k => !((buildOrderOf (packageMap packages)).contains k))
          ((packageMap packages).map (·.1)) →
          ∃ u ∈ List.filter
            (fun k => !((buildOrderOf (packageMap packages)).contains k))
            ((packageMap packages).map (·.1)),
            depOn (packageMap packages) u v := by
        intro v hv
        rw [List.mem_filter] at hv
        have hvR : v ∉ buildOrderOf (packageMap packages) := by
          have h2 := hv.2
          simp only [Bool.not_eq_true'] at h2
          exact contains_eq_false_iff.mp h2
        obtain ⟨p, hp, hpv⟩ := List.mem_map.mp hv.1
        have hresp := hres p hp (by rw [hpv]; exact hvR)
        rw [hpv] at hresp
        obtain ⟨u, hu, huR, hvd⟩ := residual_ne_zero_elim hresp
        refine ⟨u.1, ?_, ?_⟩
        · rw [List.mem_filter]
          refine ⟨List.mem_map_of_mem _ hu, ?_⟩
          simp only [Bool.not_eq_true']
          exact contains_eq_false_iff.mpr huR
        · unfold depOn
          rw [depsOf_eq_of_mem hN hu]
          exact hvd
      have hcyc : HasCycle (packageMap packages) :=
        exists_cycle_of_forall_dependent hLne hLdep
      exact ⟨fun hMiss => absurd hMiss hnM,
        ⟨fun _ => ⟨hnM, hcyc⟩, fun _ => ⟨_, hcircErr⟩⟩, hconc⟩

/-- Witness for **C5** (amended): the characterisation applied at the
concrete two-package cycle `p ↔ q`. -/
theorem resolveDependencies_error_characterisation_witness :
    ∃ s, resolveDependencies [⟨"p", ["q"], 0⟩, ⟨"q", ["p"], 0⟩] =
      .error (.circularDependency s) :=
  ⟨"p -> q",
    (resolveDependencies_error_characterisation [⟨"p", ["q"], 0⟩, ⟨"q", ["p"], 0⟩]).2.2⟩

/-! ## Directory hashing (`util.rs` lines 91–137)

`hash_directory` walks the tree with `WalkDir … .sort_by_file_name()`
(depth-first, the directory itself first, siblings in byte-wise file-name
order) and feeds, for every entry, the relative path, a `0x00` separator,
a payload (the raw 32-byte file hash for regular files — *no* `"file"`
tag — `"dir"` for directories, `"symlink:" ‖ target` for symlinks) and a
closing `0x00` into the BLAKE3 hasher.  The digest is modelled by the byte
transcript fed to the hasher; the file-content hash is the abstract
parameter `fh`. -/

/-- A filesystem tree: regular file (content bytes, executable bit),
directory (named children, in on-disk order), or symbolic link. -/
inductive FsNode where
  | file (content : List Nat) (exec : Bool)
  | dir (children : List (String × FsNode))
  | symlink (target : String)

/-- Byte-wise `a ≤ b` on file names (`WalkDir::sort_by_file_name`). -/
def nameLe (a b : String) : Bool := !(charsLt b.data a.data)

/-- The sibling order used by `sort_by_file_name`, on named children. -/
def childLe (x y : String × FsNode) : Prop := nameLe x.1 y.1 = true

instance : DecidableRel childLe := fun x y => by
  unfold childLe; infer_instance

mutual
/-- Recursively sort every directory's children by file name: the order in
which `WalkDir::sort_by_file_name` visits them. -/
def sortTree : FsNode → FsNode
  | .file c e => .file c e
  | .symlink t => .symlink t
  | .dir cs => .dir (List.insertionSort childLe (sortTreeList cs))
def sortTreeList : List (String × FsNode) → List (String × FsNode)
  | [] => []
  | c :: cs => (c.1, sortTree c.2) :: sortTreeList cs
end

mutual
/-- Depth-first traversal in the order `WalkDir` yields entries: the node
itself first (the root has the empty relative path), then each child's
subtree in the stored child order. -/
def walkRaw : FsNode → List String → List (List String × FsNode)
  | .file c e, path => [(path, .file c e)]
  | .symlink t, path => [(path, .symlink t)]
  | .dir cs, path => (path, .dir cs) :: walkRawList cs path
def walkRawList : List (String × FsNode) → List String → List (List String × FsNode)
  | [], _ => []
  | c :: cs, path => walkRaw c.2 (path ++ [c.1]) ++ walkRawList cs path
end

/-- UTF-8 bytes of a string, restricted to ASCII data (matching
`to_string_lossy().as_bytes()`). -/
def strBytes (s : String) : List Nat := s.data.map Char.toNat

/-- Bytes of a relative path rendered with `/` separators (`PathBuf`
display; the root renders as the empty string). -/
def pathBytes (p : List String) : List Nat := strBytes (String.intercalate "/" p)

/-- The bytes `hash_directory` feeds for one entry:
`relative-path ‖ 0x00 ‖ payload ‖ 0x00`, where the payload is the *raw*
file hash for regular files (the code writes `hasher.update(file_hash)`
with no `"file"` tag), `"dir"` for directories, and `"symlink:" ‖ target`
for symlinks. -/
def entryBytes (fh : List Nat → List Nat) : List String × FsNode → List Nat
  | (p, .file c _) => pathBytes p ++ [0] ++ fh c ++ [0]
  | (p, .dir _) => pathBytes p ++ [0] ++ strBytes "dir" ++ [0]
  | (p, .symlink t) => pathBytes p ++ [0] ++ strBytes "symlink:" ++ strBytes t ++ [0]

/-- The byte transcript `hash_directory` (`util.rs` lines 91–137) feeds to
the BLAKE3 hasher: entries in `WalkDir`'s sorted depth-first order, framed
by `entryBytes`. -/
def hashDirectoryTranscript (fh : List Nat → List Nat) (root : FsNode) : List Nat :=
  (walkRaw (sortTree root) []).flatMap (entryBytes fh)

/-- Byte-wise lexicographic strict order on byte lists. -/
def bytesLt : List Nat → List Nat → Bool
  | [], [] => false
  | [], _ :: _ => true
  | _ :: _, [] => false
  | a :: as, b :: bs =>
    if a < b then true else if b < a then false else bytesLt as bs

/-- The framing of one entry described by the *specification*: the kind-tag
is `"file"` followed by the file hash for regular files. -/
def specEntryBytes (fh : List Nat → List Nat) : List String × FsNode → List Nat
  | (p, .file c _) => pathBytes p ++ [0] ++ strBytes "file" ++ fh c ++ [0]
  | (p, .dir _) => pathBytes p ++ [0] ++ strBytes "dir" ++ [0]
  | (p, .symlink t) => pathBytes p ++ [0] ++ strBytes "symlink:" ++ strBytes t ++ [0]

/-- The canonical digest transcript described by the specification (claim
C2): the flat entry list sorted by byte-wise relative path, each entry
framed as `relative-path ‖ 0x00 ‖ kind-tag ‖ payload ‖ 0x00` with the
`"file"` tag. -/
def hashDirectoryCanonicalSpec (fh : List Nat → List Nat) (root : FsNode) :
    List Nat :=
  (List.insertionSort (fun x y => (!(bytesLt (pathBytes y.1) (pathBytes x.1))) = true)
    (walkRaw root [])).flatMap (specEntryBytes fh)

/-- Counterexample to **C2**: on the tree `{a.txt ↦ "Y", a/x ↦ "X"}` the
transcript the code hashes differs from the specification's canonical
framing — the code omits the `"file"` tag and visits `a/x` before `a.txt`
(depth-first with siblings sorted by name), while byte-wise path order puts
`a.txt` (`.` = 0x2E) before `a/x` (`/` = 0x2F). -/
theorem hashDirectory_ne_canonicalSpec :
    hashDirectoryTranscript (fun c => c)
        (.dir [("a.txt", .file [89] false), ("a", .dir [("x", .file [88] false)])]) ≠
      hashDirectoryCanonicalSpec (fun c => c)
        (.dir [("a.txt", .file [89] false), ("a", .dir [("x", .file [88] false)])]) := by
  decide

/-! ### The order actually hashed: depth-first with sorted siblings equals
the flat entry list sorted by *component-wise* path order. -/

/-- Lexicographic strict order on paths compared component by component,
each component byte-wise. -/
def pathCompLt : List String → List String → Bool
  | [], [] => false
  | [], _ :: _ => true
  | _ :: _, [] => false
  | a :: as, b :: bs =>
    if charsLt a.data b.data then true
    else if charsLt b.data a.data then false
    else pathCompLt as bs

/-- `p ≤ q` in component-wise path order. -/
def pathCompLe (p q : List String) : Bool := !(pathCompLt q p)

/-- Entry order by component-wise relative path. -/
def entryLe (x y : List String × FsNode) : Prop := pathCompLe x.1 y.1 = true

instance : DecidableRel entryLe := fun x y => by
  unfold entryLe; infer_instance

mutual
/-- Well-formed tree: sibling names within each directory are distinct. -/
def wfN : FsNode → Prop
  | .file _ _ => True
  | .symlink _ => True
  | .dir cs => (cs.map (·.1)).Nodup ∧ wfL cs
def wfL : List (String × FsNode) → Prop
  | [] => True
  | c :: cs => wfN c.2 ∧ wfL cs
end

/-- The amended canonical digest transcript: the flat entry list (root
included with empty relative path), sorted by component-wise relative-path
order, each entry framed with the code's payloads (raw file hash, `"dir"`,
`"symlink:" ‖ target`).  `entryBytes` does not inspect a directory's
children, so the traversal used to collect the flat list does not affect the
framed bytes. -/
def hashDirectoryCanonicalAmended (fh : List Nat → List Nat) (root : FsNode) :
    List Nat :=
  (List.insertionSort entryLe (walkRaw (sortTree root) [])).flatMap (entryBytes fh)

theorem charsLt_asymm {a b : List Char} (h : charsLt a b = true) :
    charsLt b a = false := by
  cases hb : charsLt b a with
  | false => rfl
  | true => exact absurd (charsLt_trans h hb) (by simp [charsLt_irrefl])

theorem string_data_inj {a b : String} (h : a.data = b.data) : a = b := by
  cases a
  cases b
  exact congrArg String.mk h

theorem pathCompLt_nil_cons (x : String) (xs : List String) :
    pathCompLt [] (x :: xs) = true := rfl

theorem pathCompLt_ext : ∀ (p q : List String), q ≠ [] →
    pathCompLt p (p ++ q) = true := by
  intro p
  induction p with
  | nil =>
    intro q hq
    cases q with
    | nil => exact absurd rfl hq
    | cons x xs => rfl
  | cons a as ih =>
    intro q hq
    simp only [List.cons_append, pathCompLt]
    rw [if_neg (by simp [charsLt_irrefl]), if_neg (by simp [charsLt_irrefl])]
    exact ih q hq

theorem pathCompLt_name : ∀ (p : List String) {n n' : String}
    (r1 r2 : List String), charsLt n.data n'.data = true →
    pathCompLt (p ++ n :: r1) (p ++ n' :: r2) = true := by
  intro p
  induction p with
  | nil =>
    intro n n' r1 r2 h
    simp only [List.nil_append, pathCompLt]
    rw [if_pos h]
  | cons a as ih =>
    intro n n' r1 r2 h
    simp only [List.cons_append, pathCompLt]
    rw [if_neg (by simp [charsLt_irrefl]), if_neg (by simp [charsLt_irrefl])]
    exact ih r1 r2 h

theorem pathCompLt_asymm : ∀ {a b : List String},
    pathCompLt a b = true → pathCompLt b a = false := by
  intro a
  induction a with
  | nil =>
    intro b h
    cases b with
    | nil => simp [pathCompLt] at h
    | cons y ys => simp [pathCompLt]
  | cons x xs ih =>
    intro b h
    cases b with
    | nil => simp [pathCompLt] at h
    | cons y ys =>
      simp only [pathCompLt] at h ⊢
      by_cases hxy : charsLt x.data y.data = true
      · rw [if_neg (by simp [charsLt_asymm hxy]), if_pos hxy]
      · rw [if_neg hxy] at h
        by_cases hyx : charsLt y.data x.data = true
        · rw [if_pos hyx] at h
          simp at h
        · rw [if_neg hyx] at h
          rw [if_neg hyx, if_neg hxy]
          exact ih h

theorem entryLe_of_lt {x y : List String × FsNode}
    (h : pathCompLt x.1 y.1 = true) : entryLe x y := by
  unfold entryLe pathCompLe
  rw [pathCompLt_asymm h]
  rfl

theorem mem_sortTreeList : ∀ {cs : List (String × FsNode)}
    {x : String × FsNode}, x ∈ sortTreeList cs →
    ∃ c ∈ cs, x = (c.1, sortTree c.2) := by
  intro cs
  induction cs with
  | nil => intro x hx; simp [sortTreeList] at hx
  | cons c cs ih =>
    intro x hx
    rw [sortTreeList] at hx
    rcases List.mem_cons.mp hx with h | h
    · exact ⟨c, List.mem_cons_self .., h⟩
    · obtain ⟨c', hc', he⟩ := ih h
      exact ⟨c', List.mem_cons_of_mem _ hc', he⟩

theorem map_fst_sortTreeList : ∀ (cs : List (String × FsNode)),
    (sortTreeList cs).map (·.1) = cs.map (·.1) := by
  intro cs
  induction cs with
  | nil => rfl
  | cons c cs ih => simp [sortTreeList, ih]

theorem wfL_mem : ∀ {cs : List (String × FsNode)}, wfL cs →
    ∀ c ∈ cs, wfN c.2 := by
  intro cs
  induction cs with
  | nil => intro _ c hc; cases hc
  | cons c cs ih =>
    intro hw c' hc'
    rw [wfL] at hw
    rcases List.mem_cons.mp hc' with h | h
    · exact h ▸ hw.1
    · exact ih hw.2 c' h

instance : IsTotal (String × FsNode) childLe := by
  constructor
  intro x y
  unfold childLe nameLe
  by_cases h : charsLt y.1.data x.1.data = true
  · right
    simp [charsLt_asymm h]
  · left
    simp only [Bool.not_eq_true] at h
    simp [h]

instance : IsTrans (String × FsNode) childLe := by
  constructor
  intro x y z hxy hyz
  unfold childLe nameLe at *
  simp only [Bool.not_eq_true'] at hxy hyz ⊢
  cases hzx : charsLt z.1.data x.1.data with
  | false => rfl
  | true =>
    by_cases hxy2 : charsLt x.1.data y.1.data = true
    · exact absurd (charsLt_trans hzx hxy2) (by simp [hyz])
    · have he : x.1.data = y.1.data :=
        charsLt_connex (by simpa using hxy2) hxy
      rw [he] at hzx
      exact absurd hzx (by simp [hyz])

mutual
theorem walkRaw_prefix : ∀ (t : FsNode) (p : List String),
    ∀ e ∈ walkRaw t p, ∃ s, e.1 = p ++ s
  | .file c ex, p => by
    intro e he
    simp only [walkRaw, List.mem_singleton] at he
    exact ⟨[], by rw [he, List.append_nil]⟩
  | .symlink t, p => by
    intro e he
    simp only [walkRaw, List.mem_singleton] at he
    exact ⟨[], by rw [he, List.append_nil]⟩
  | .dir cs, p => by
    intro e he
    simp only [walkRaw] at he
    rcases List.mem_cons.mp he with h | h
    · exact ⟨[], by rw [h, List.append_nil]⟩
    · obtain ⟨n, s, hns, _⟩ := walkRawList_prefix cs p e h
      exact ⟨n :: s, hns⟩
theorem walkRawList_prefix : ∀ (cs : List (String × FsNode)) (p : List String),
    ∀ e ∈ walkRawList cs p, ∃ n s, e.1 = p ++ n :: s ∧ n ∈ cs.map (·.1)
  | [], p => by
    intro e he
    simp only [walkRawList] at he
    cases he
  | c :: cs, p => by
    intro e he
    simp only [walkRawList] at he
    rcases List.mem_append.mp he with h | h
    · obtain ⟨s, hs⟩ := walkRaw_prefix c.2 (p ++ [c.1]) e h
      refine ⟨c.1, s, ?_, by simp⟩
      rw [hs, List.append_assoc]
      rfl
    · obtain ⟨n, s, hs, hn⟩ := walkRawList_prefix cs p e h
      exact ⟨n, s, hs, by simp [hn]⟩
end

theorem pairwise_strict_of_sorted_nodup {l : List (String × FsNode)}
    (hs : List.Sorted childLe l) (hn : (l.map (·.1)).Nodup) :
    List.Pairwise (fun x y => charsLt x.1.data y.1.data = true) l := by
  have hp : List.Pairwise (fun x y : String × FsNode => x.1 ≠ y.1) l := by
    rw [List.Nodup, List.pairwise_map] at hn
    exact hn
  refine (List.Pairwise.and hs hp).imp ?_
  rintro a b ⟨hle, hne⟩
  unfold childLe nameLe at hle
  simp only [Bool.not_eq_true'] at hle
  cases hab : charsLt a.1.data b.1.data with
  | true => rfl
  | false =>
    have he : a.1.data = b.1.data := charsLt_connex hab hle
    exact absurd (string_data_inj he) hne

theorem walkRawList_sorted_of : ∀ (ds : List (String × FsNode)) (p : List String),
    (∀ d ∈ ds, List.Sorted entryLe (walkRaw d.2 (p ++ [d.1]))) →
    List.Pairwise (fun x y => charsLt x.1.data y.1.data = true) ds →
    List.Sorted entryLe (walkRawList ds p) := by
  intro ds
  induction ds with
  | nil =>
    intro p _ _
    simp only [walkRawList]
    exact List.sorted_nil
  | cons d ds ih =>
    intro p hblocks hpw
    simp only [walkRawList, List.Sorted]
    rw [List.pairwise_append]
    refine ⟨hblocks d (List.mem_cons_self ..),
      ih p (fun d' hd' => hblocks d' (List.mem_cons_of_mem _ hd')) hpw.of_cons, ?_⟩
    intro x hx y hy
    obtain ⟨s, hs⟩ := walkRaw_prefix d.2 (p ++ [d.1]) x hx
    obtain ⟨n, s', hs', hn⟩ := walkRawList_prefix ds p y hy
    have hx1 : x.1 = p ++ d.1 :: s := by
      rw [hs, List.append_assoc]
      rfl
    have hdn : charsLt d.1.data n.data = true := by
      obtain ⟨d', hd', hd'1⟩ := List.mem_map.mp hn
      have hrel := (List.pairwise_cons.mp hpw).1 d' hd'
      rw [hd'1] at hrel
      exact hrel
    apply entryLe_of_lt
    rw [hx1, hs']
    exact pathCompLt_name p s s' hdn

theorem walkRaw_sortTree_sorted : ∀ (N : Nat) (t : FsNode), sizeOf t ≤ N →
    wfN t → ∀ p, List.Sorted entryLe (walkRaw (sortTree t) p) := by
  intro N
  induction N with
  | zero =>
    intro t ht
    exfalso
    cases t <;> simp at ht
  | succ N ih =>
    intro t ht hwf p
    match t with
    | .file c e =>
      simp only [sortTree, walkRaw]
      exact List.sorted_singleton _
    | .symlink s =>
      simp only [sortTree, walkRaw]
      exact List.sorted_singleton _
    | .dir cs =>
      simp only [sortTree, walkRaw]
      rw [List.sorted_cons]
      rw [wfN] at hwf
      have hperm := List.perm_insertionSort childLe (sortTreeList cs)
      have hsorted_names := List.sorted_insertionSort childLe (sortTreeList cs)
      have hnodup : ((List.insertionSort childLe (sortTreeList cs)).map (·.1)).Nodup := by
        have hp : List.Perm
            ((List.insertionSort childLe (sortTreeList cs)).map (·.1))
            ((sortTreeList cs).map (·.1)) := hperm.map _
        rw [map_fst_sortTreeList] at hp
        exact hp.nodup_iff.mpr hwf.1
      have hstrict := pairwise_strict_of_sorted_nodup hsorted_names hnodup
      refine ⟨?_, ?_⟩
      · intro b hb
        obtain ⟨n, s, hb1, _⟩ := walkRawList_prefix _ p b hb
        apply entryLe_of_lt
        rw [hb1]
        exact pathCompLt_ext p (n :: s) (by simp)
      · apply walkRawList_sorted_of
        · intro d hd
          have hd' : d ∈ sortTreeList cs := hperm.subset hd
          obtain ⟨c, hc, hce⟩ := mem_sortTreeList hd'
          obtain ⟨c1, c2⟩ := c
          have hsize : sizeOf c2 ≤ N := by
            have h1 := List.sizeOf_lt_of_mem hc
            simp at ht h1
            omega
          have hwfc : wfN c2 := wfL_mem hwf.2 (c1, c2) hc
          rw [hce]
          exact ih c2 hsize hwfc (p ++ [c1])
        · exact hstrict

/-- **C2** (amended).  `hash_directory(D)` equals the canonical digest
obtained by collecting the flat list of (relative-path, kind, payload)
entries of `D` (the root included, with empty relative path), sorting it by
*component-wise* relative-path order, and feeding
`relative-path ‖ 0x00 ‖ payload ‖ 0x00` into the hasher for each entry,
where the payload is the raw content hash for regular files (no `"file"`
tag), `"dir"` for directories, and `"symlink:"` followed by the target for
symlinks — provided sibling names are distinct (true of any real directory
tree). -/
theorem hashDirectory_eq_canonicalAmended (fh : List Nat → List Nat)
    (root : FsNode) (hwf : wfN root) :
    hashDirectoryTranscript fh root = hashDirectoryCanonicalAmended fh root := by
  unfold hashDirectoryTranscript hashDirectoryCanonicalAmended
  congr 1
  exact (List.Sorted.insertionSort_eq
    (walkRaw_sortTree_sorted (sizeOf root) root le_rfl hwf [])).symm

/-- Witness for **C2** (amended) at the counterexample tree. -/
theorem hashDirectory_eq_canonicalAmended_witness :
    hashDirectoryTranscript (fun c => c)
        (.dir [("a.txt", .file [89] false), ("a", .dir [("x", .file [88] false)])]) =
      hashDirectoryCanonicalAmended (fun c => c)
        (.dir [("a.txt", .file [89] false), ("a", .dir [("x", .file [88] false)])]) :=
  hashDirectory_eq_canonicalAmended _ _ (by
    rw [wfN]
    refine ⟨by decide, ?_⟩
    rw [wfL]
    refine ⟨trivial, ?_⟩
    rw [wfL]
    refine ⟨?_, trivial⟩
    rw [wfN]
    refine ⟨by decide, ?_⟩
    rw [wfL]
    exact ⟨trivial, trivial⟩)

/-! ### Store ingestion (`store/ingest.rs`) -/

/-- A node of the staging tree handed to `ingest_package`.
`scan_source_directory` skips every path for which `path.is_dir()` holds (a
check that follows symlinks), so directories contribute no `FileEntry` and are
left implicit in the path components; only regular files and symlinks are
modelled.  A symlink records its target as a staging-relative path. -/
inductive SrcNode where
  | file (content : List Nat) (exec : Bool)
  | symlink (target : List String)
deriving DecidableEq

/-- A staging tree: relative path (components) ↦ node. -/
abbrev Staging := List (List String × SrcNode)

/-- `FileEntry` of `ingest.rs`: relative path, content hash, size, exec bit. -/
structure FileEntry where
  relative_path : List String
  hash : List Nat
  size : Nat
  is_executable : Bool
deriving DecidableEq

/-- Look up a staging path (how `File::open` / `fs::copy` reach a symlink's
target: one resolution step inside the same staging tree). -/
def lookupSrc (S : Staging) (p : List String) : Option SrcNode :=
  (S.find? (fun e => decide (e.1 = p))).map (·.2)

/-- The bytes and permission bits `fs::copy` reads at a staging entry: a
regular file's own content, or — since `fs::copy` follows symlinks — the
content of a symlink's target.  `none` models a dangling link (open fails). -/
def resolveSrc (S : Staging) : SrcNode → Option (List Nat × Bool)
  | .file c e => some (c, e)
  | .symlink t =>
    match lookupSrc S t with
    | some (.file c e) => some (c, e)
    | _ => none

/-- Ingest errors: the code surfaces `anyhow`-wrapped I/O errors; one
constructor suffices. -/
inductive IngestErr where
  | ioError
deriving DecidableEq

/-- One entry of `scan_source_directory`.  `compute_file_hash` opens the path
with `fs::File::open`, which follows symlinks, so a symlink is hashed as its
target's content; `entry.metadata()` (links not followed) describes the link
itself, whose size is the target string's length and whose mode has the
executable bits set (mode `0o777` on Linux). -/
def scanEntry (fh : List Nat → List Nat) (S : Staging) :
    List String × SrcNode → Except IngestErr FileEntry
  | (p, .file c e) => .ok ⟨p, fh c, c.length, e⟩
  | (p, .symlink t) =>
    match lookupSrc S t with
    | some (.file c _) => .ok ⟨p, fh c, (String.intercalate "/" t).length, true⟩
    | _ => .error .ioError

/-- Scan every staging entry in walk order, failing on the first error. -/
def scanAll (fh : List Nat → List Nat) (S : Staging) :
    List (List String × SrcNode) → Except IngestErr (List FileEntry)
  | [] => .ok []
  | e :: es =>
    match scanEntry fh S e with
    | .error err => .error err
    | .ok fe =>
      match scanAll fh S es with
      | .error err => .error err
      | .ok rest => .ok (fe :: rest)

/-- `entries.sort_by(|a, b| a.relative_path.cmp(&b.relative_path))`:
`PathBuf` ordering compares component-wise. -/
def feLe (a b : FileEntry) : Prop :=
  pathCompLe a.relative_path b.relative_path = true

instance : DecidableRel feLe := fun a b => by
  unfold feLe
  infer_instance

/-- `scan_source_directory` (`ingest.rs` lines 160–203): walk the staging
tree, hash each non-directory entry, then sort by relative path for
deterministic package hashing. -/
def scan_source_directory (fh : List Nat → List Nat) (S : Staging) :
    Except IngestErr (List FileEntry) :=
  (scanAll fh S S).map (List.insertionSort feLe)

/-- `compute_package_hash`: hash of the concatenation of
`path ‖ "|" ‖ file-hash ‖ "\n"` over the sorted entries. -/
def compute_package_hash (fh : List Nat → List Nat)
    (es : List FileEntry) : List Nat :=
  fh (es.flatMap (fun e =>
    pathBytes e.relative_path ++ strBytes "|" ++ e.hash ++ strBytes "\n"))

/-- Modelled from the spec: `layout.package_path(hash, name)` (the
`StoreLayout` sources are absent).  §7 lays a package out at
`packages/H[0:2]/H[2:4]/H-name/`, a path determined injectively by the pair
(package-hash, name), so a store path is modelled as that pair. -/
abbrev PkgKey := List Nat × String

/-- A path inside the store: a package directory plus a relative path. -/
abbrev DestPath := PkgKey × List String

/-- `StoredPackage` record written by `store_package_metadata`. -/
structure PkgRecord where
  name : String
  version : String
  store_path : PkgKey
  entries : List FileEntry
deriving DecidableEq

/-- Modelled from the spec: the `MetaStore` trait implementation used by
`ingest.rs` (`crate::meta::MetaStore`) is not among the sources; §4.5
specifies its tables.  `fileTable` maps a file-hash to its canonical store
path, `refcounts` maps a package-hash to a count, `packages` records
`StoredPackage` metadata. -/
structure MetaIndex where
  fileTable : List (List Nat × DestPath)
  refcounts : List (List Nat × Nat)
  packages : List (List Nat × PkgRecord)
deriving DecidableEq

/-- `find_file_by_hash` / spec §4.4 step 5: look up file-hash →
canonical-path. -/
def find_file_by_hash (m : MetaIndex) (h : List Nat) : Option DestPath :=
  (m.fileTable.find? (fun e => decide (e.1 = h))).map (·.2)

/-- Modelled from the spec: `track_file` registers the canonical path for a
file-hash; canonical-path uniqueness (§8 property 3: MetaIndex stores exactly
one canonical path per hash) makes it insert-if-absent — the first registered
path stays canonical. -/
def track_file (m : MetaIndex) (h : List Nat) (p : DestPath) : MetaIndex :=
  match find_file_by_hash m h with
  | some _ => m
  | none => { m with fileTable := m.fileTable ++ [(h, p)] }

/-- Modelled from the spec: `get_refcount` reads the refcounts table
(0 when absent). -/
def get_refcount (m : MetaIndex) (h : List Nat) : Nat :=
  ((m.refcounts.find? (fun e => decide (e.1 = h))).map (·.2)).getD 0

/-- Modelled from the spec: `increment_refcount`. -/
def increment_refcount (m : MetaIndex) (h : List Nat) : MetaIndex :=
  { m with refcounts :=
      (h, get_refcount m h + 1) ::
        m.refcounts.filter (fun e => !(decide (e.1 = h))) }

/-- Modelled from the spec: `set_refcount`. -/
def set_refcount (m : MetaIndex) (h : List Nat) (n : Nat) : MetaIndex :=
  { m with refcounts :=
      (h, n) :: m.refcounts.filter (fun e => !(decide (e.1 = h))) }

/-- Modelled from the spec: `store_package_metadata`. -/
def store_package_metadata (m : MetaIndex) (h : List Nat) (r : PkgRecord) :
    MetaIndex :=
  { m with packages :=
      (h, r) :: m.packages.filter (fun e => !(decide (e.1 = h))) }

/-- On-disk store state: the package directories that exist and the regular
files under them.  The code writes destination entries only with `fs::copy`
or `Backend.deduplicate_file` (reflink / hardlink), both of which produce a
regular file — never `symlinkat` — so a destination node is content plus an
exec bit. -/
structure StoreFS where
  pkgDirs : List PkgKey
  files : List (DestPath × (List Nat × Bool))
deriving DecidableEq

/-- Combined observable state: MetaIndex plus store filesystem. -/
structure SysState where
  meta : MetaIndex
  fs : StoreFS
deriving DecidableEq

/-- Content (and exec bit) of the store file at `p`, if present. -/
def readStore (st : StoreFS) (p : DestPath) : Option (List Nat × Bool) :=
  (st.files.find? (fun e => decide (e.1 = p))).map (·.2)

/-- Write (or overwrite) a regular file in the store. -/
def writeStore (st : StoreFS) (p : DestPath) (c : List Nat × Bool) : StoreFS :=
  { st with files := (p, c) :: st.files.filter (fun e => !(decide (e.1 = p))) }

/-- The per-file loop of `ingest_package` (`ingest.rs` lines 99–130): for each
entry, either deduplicate against the canonical path registered for its hash
(`Backend.deduplicate_file`, modelled from the spec as materializing the
canonical file's bytes at the destination — its sources are absent) or copy it
from the staging tree with `fs::copy`, which follows symlinks and preserves
the (resolved) source permissions, after which `set_executable` adds `0o755`
when the scan marked the entry executable; `copyFails` injects an I/O fault
at a given relative path.  `track_file` runs inside the loop, after each
file and before the package metadata commit. -/
def ingestFiles (S : Staging) (copyFails : List String → Bool) (key : PkgKey) :
    List FileEntry → SysState → Nat → Nat →
      Except IngestErr (Nat × Nat) × SysState
  | [], st, ded, new => (.ok (ded, new), st)
  | e :: es, st, ded, new =>
    let dest : DestPath := (key, e.relative_path)
    match find_file_by_hash st.meta e.hash with
    | some canon =>
      match readStore st.fs canon with
      | some c =>
        ingestFiles S copyFails key es
          { meta := track_file st.meta e.hash dest,
            fs := writeStore st.fs dest c } (ded + 1) new
      | none => (.error .ioError, st)
    | none =>
      if copyFails e.relative_path then (.error .ioError, st)
      else
        match (lookupSrc S e.relative_path).bind (resolveSrc S) with
        | some c =>
          ingestFiles S copyFails key es
            { meta := track_file st.meta e.hash dest,
              fs := writeStore st.fs dest (c.1, c.2 || e.is_executable) }
            ded (new + 1)
        | none => (.error .ioError, st)

/-- `IngestResult` (`ingest.rs` lines 22–30). -/
structure IngestResult where
  package_hash : List Nat
  store_path : PkgKey
  size_bytes : Nat
  file_count : Nat
  deduplicated_files : Nat
  new_files : Nat
deriving DecidableEq

/-- `ingest_package` (`ingest.rs` lines 56–157): scan the staging tree,
compute the package hash, and — when the store path already exists — just
increment the refcount and return; otherwise create the package directory,
run the per-file loop, record the `StoredPackage`, and set the refcount
to 1. -/
def ingest_package (fh : List Nat → List Nat) (cf : List String → Bool)
    (name version : String) (S : Staging) (st : SysState) :
    Except IngestErr IngestResult × SysState :=
  match scan_source_directory fh S with
  | .error e => (.error e, st)
  | .ok entries =>
    let package_hash := compute_package_hash fh entries
    let key : PkgKey := (package_hash, name)
    match st.fs.pkgDirs.any (fun k => decide (k = key)) with
    | true =>
      (.ok { package_hash := package_hash, store_path := key,
             size_bytes := (entries.map (·.size)).sum,
             file_count := entries.length,
             deduplicated_files := entries.length, new_files := 0 },
       { st with meta := increment_refcount st.meta package_hash })
    | false =>
      match ingestFiles S cf key entries
          { st with fs := { st.fs with pkgDirs := key :: st.fs.pkgDirs } }
          0 0 with
      | (.error e, st2) => (.error e, st2)
      | (.ok dn, st2) =>
        let rec2 : PkgRecord :=
          { name := name, version := version, store_path := key,
            entries := entries }
        let meta2 : MetaIndex :=
          set_refcount (store_package_metadata st2.meta package_hash rec2)
            package_hash 1
        (.ok { package_hash := package_hash, store_path := key,
               size_bytes := (entries.map (·.size)).sum,
               file_count := entries.length,
               deduplicated_files := dn.1, new_files := dn.2 },
         { st2 with meta := meta2 })

theorem find?_append_of_some {α : Type} {p : α → Bool} {l1 : List α}
    (l2 : List α) {a : α} (h : l1.find? p = some a) :
    (l1 ++ l2).find? p = some a := by
  induction l1 with
  | nil => simp [List.find?] at h
  | cons x xs ih =>
    rw [List.cons_append]
    cases hpx : p x with
    | true =>
      rw [List.find?_cons_of_pos _ hpx] at h
      rw [List.find?_cons_of_pos _ hpx]
      exact h
    | false =>
      rw [List.find?_cons_of_neg _ (by simp [hpx])] at h
      rw [List.find?_cons_of_neg _ (by simp [hpx])]
      exact ih h

theorem track_file_find_preserved {m : MetaIndex} {h : List Nat}
    {p : DestPath} (h' : List Nat) (p' : DestPath)
    (hf : find_file_by_hash m h = some p) :
    find_file_by_hash (track_file m h' p') h = some p := by
  unfold track_file
  cases hx : find_file_by_hash m h' with
  | some q => exact hf
  | none =>
    unfold find_file_by_hash at hf ⊢
    cases hy : m.fileTable.find? (fun e => decide (e.1 = h)) with
    | none => rw [hy] at hf; simp at hf
    | some e =>
      rw [hy] at hf
      rw [find?_append_of_some _ hy]
      exact hf

theorem track_file_nodup {m : MetaIndex} {h : List Nat} {p : DestPath}
    (hn : (m.fileTable.map (·.1)).Nodup) :
    ((track_file m h p).fileTable.map (·.1)).Nodup := by
  unfold track_file
  cases hx : find_file_by_hash m h with
  | some q => exact hn
  | none =>
    unfold find_file_by_hash at hx
    have hfind : m.fileTable.find? (fun e => decide (e.1 = h)) = none := by
      cases hy : m.fileTable.find? (fun e => decide (e.1 = h)) with
      | none => rfl
      | some e => rw [hy] at hx; simp at hx
    have hnot : h ∉ m.fileTable.map (·.1) := by
      intro hmem
      obtain ⟨e, he, he1⟩ := List.mem_map.mp hmem
      have := List.find?_eq_none.mp hfind e he
      simp [he1] at this
    simp only [List.map_append, List.map_cons, List.map_nil]
    rw [List.nodup_append]
    refine ⟨hn, List.nodup_singleton _, ?_⟩
    intro a ha hb
    simp only [List.mem_singleton] at hb
    rw [hb] at ha
    exact hnot ha

theorem get_refcount_increment (m : MetaIndex) (h : List Nat) :
    get_refcount (increment_refcount m h) h = get_refcount m h + 1 := by
  have hb : (fun e : List Nat × Nat => decide (e.1 = h))
      (h, get_refcount m h + 1) = true := by simp
  show ((((h, get_refcount m h + 1) ::
      m.refcounts.filter (fun e => !(decide (e.1 = h)))).find?
        (fun e => decide (e.1 = h))).map (·.2)).getD 0 = get_refcount m h + 1
  rw [List.find?_cons_of_pos (p := fun e : List Nat × Nat => decide (e.1 = h))
    _ hb]
  rfl

theorem ingestFiles_pkgDirs (S : Staging) (cf : List String → Bool)
    (key : PkgKey) : ∀ (es : List FileEntry) (st : SysState) (d n : Nat),
    ((ingestFiles S cf key es st d n).2).fs.pkgDirs = st.fs.pkgDirs := by
  intro es
  induction es with
  | nil => intro st d n; rfl
  | cons e es ih =>
    intro st d n
    cases hF : find_file_by_hash st.meta e.hash with
    | some canon =>
      cases hR : readStore st.fs canon with
      | some c =>
        simp only [ingestFiles, hF, hR]
        rw [ih]
        rfl
      | none => simp only [ingestFiles, hF, hR]
    | none =>
      cases hC : cf e.relative_path with
      | true =>
        simp only [ingestFiles, hF]
        rw [if_pos hC]
      | false =>
        cases hL : (lookupSrc S e.relative_path).bind (resolveSrc S) with
        | some c =>
          simp only [ingestFiles, hF, hL]
          rw [if_neg (by simp [hC])]
          rw [ih]
          rfl
        | none =>
          simp only [ingestFiles, hF, hL]
          rw [if_neg (by simp [hC])]

theorem ingestFiles_find_preserved (S : Staging) (cf : List String → Bool)
    (key : PkgKey) : ∀ (es : List FileEntry) (st : SysState) (d n : Nat)
    (h : List Nat) (p : DestPath),
    find_file_by_hash st.meta h = some p →
    find_file_by_hash ((ingestFiles S cf key es st d n).2).meta h = some p := by
  intro es
  induction es with
  | nil => intro st d n h p hf; exact hf
  | cons e es ih =>
    intro st d n h p hf
    cases hF : find_file_by_hash st.meta e.hash with
    | some canon =>
      cases hR : readStore st.fs canon with
      | some c =>
        simp only [ingestFiles, hF, hR]
        exact ih _ _ _ _ _ (track_file_find_preserved _ _ hf)
      | none =>
        simp only [ingestFiles, hF, hR]
        exact hf
    | none =>
      cases hC : cf e.relative_path with
      | true =>
        simp only [ingestFiles, hF]
        rw [if_pos hC]
        exact hf
      | false =>
        cases hL : (lookupSrc S e.relative_path).bind (resolveSrc S) with
        | some c =>
          simp only [ingestFiles, hF, hL]
          rw [if_neg (by simp [hC])]
          exact ih _ _ _ _ _ (track_file_find_preserved _ _ hf)
        | none =>
          simp only [ingestFiles, hF, hL]
          rw [if_neg (by simp [hC])]
          exact hf

theorem ingestFiles_nodup (S : Staging) (cf : List String → Bool)
    (key : PkgKey) : ∀ (es : List FileEntry) (st : SysState) (d n : Nat),
    (st.meta.fileTable.map (·.1)).Nodup →
    (((ingestFiles S cf key es st d n).2).meta.fileTable.map (·.1)).Nodup := by
  intro es
  induction es with
  | nil => intro st d n hn; exact hn
  | cons e es ih =>
    intro st d n hn
    cases hF : find_file_by_hash st.meta e.hash with
    | some canon =>
      cases hR : readStore st.fs canon with
      | some c =>
        simp only [ingestFiles, hF, hR]
        exact ih _ _ _ (track_file_nodup hn)
      | none =>
        simp only [ingestFiles, hF, hR]
        exact hn
    | none =>
      cases hC : cf e.relative_path with
      | true =>
        simp only [ingestFiles, hF]
        rw [if_pos hC]
        exact hn
      | false =>
        cases hL : (lookupSrc S e.relative_path).bind (resolveSrc S) with
        | some c =>
          simp only [ingestFiles, hF, hL]
          rw [if_neg (by simp [hC])]
          exact ih _ _ _ (track_file_nodup hn)
        | none =>
          simp only [ingestFiles, hF, hL]
          rw [if_neg (by simp [hC])]
          exact hn

/-- **C3**: for every staging tree `S`, name and version, when a first
`ingest_package` call succeeds, a second call with the same arguments
succeeds and returns the same `package_hash`; the second call leaves the
store filesystem (package directories and file contents) exactly as the
first call left it, and its only MetaIndex effect is to increment the
package's refcount by one. -/
theorem ingest_package_idempotent (fh : List Nat → List Nat)
    (cf : List String → Bool) (name version : String) (S : Staging)
    (st0 : SysState) (r1 : IngestResult)
    (h1 : (ingest_package fh cf name version S st0).1 = Except.ok r1) :
    ∃ r2 : IngestResult,
      (ingest_package fh cf name version S
          (ingest_package fh cf name version S st0).2).1 = Except.ok r2 ∧
      r2.package_hash = r1.package_hash ∧
      (ingest_package fh cf name version S
          (ingest_package fh cf name version S st0).2).2.fs =
        (ingest_package fh cf name version S st0).2.fs ∧
      (ingest_package fh cf name version S
          (ingest_package fh cf name version S st0).2).2.meta =
        increment_refcount (ingest_package fh cf name version S st0).2.meta
          r1.package_hash ∧
      get_refcount
          (ingest_package fh cf name version S
            (ingest_package fh cf name version S st0).2).2.meta
          r1.package_hash =
        get_refcount (ingest_package fh cf name version S st0).2.meta
          r1.package_hash + 1 := by
  cases hscan : scan_source_directory fh S with
  | error e =>
    simp only [ingest_package, hscan] at h1
    exact Except.noConfusion h1
  | ok entries =>
    cases hmem : st0.fs.pkgDirs.any
        (fun k => decide (k = (compute_package_hash fh entries, name))) with
    | true =>
      have hfirst : ingest_package fh cf name version S st0 =
          (Except.ok
            { package_hash := compute_package_hash fh entries,
              store_path := (compute_package_hash fh entries, name),
              size_bytes := (entries.map (·.size)).sum,
              file_count := entries.length,
              deduplicated_files := entries.length, new_files := 0 },
           { st0 with meta :=
               (increment_refcount st0.meta
                 (compute_package_hash fh entries)) }) := by
        simp only [ingest_package, hscan, hmem]
      have hsecond : ingest_package fh cf name version S
          { st0 with meta :=
              increment_refcount st0.meta (compute_package_hash fh entries) } =
          (Except.ok
            { package_hash := compute_package_hash fh entries,
              store_path := (compute_package_hash fh entries, name),
              size_bytes := (entries.map (·.size)).sum,
              file_count := entries.length,
              deduplicated_files := entries.length, new_files := 0 },
           { st0 with meta :=
               (increment_refcount
                 (increment_refcount st0.meta (compute_package_hash fh entries))
                 (compute_package_hash fh entries)) }) := by
        simp only [ingest_package, hscan, hmem]
      simp only [hfirst, Except.ok.injEq] at h1
      simp only [hfirst, hsecond]
      subst h1
      refine ⟨_, rfl, ?_, ?_, ?_, ?_⟩ <;>
        first
        | trivial
        | exact get_refcount_increment _ _
    | false =>
      cases hloop : ingestFiles S cf (compute_package_hash fh entries, name)
          entries
          { st0 with fs := { st0.fs with
              pkgDirs := (compute_package_hash fh entries, name) ::
                st0.fs.pkgDirs } } 0 0 with
      | mk res st2 =>
        cases res with
        | error e =>
          simp only [ingest_package, hscan, hmem, hloop] at h1
          exact Except.noConfusion h1
        | ok dn =>
          have hdirs : st2.fs.pkgDirs =
              (compute_package_hash fh entries, name) :: st0.fs.pkgDirs := by
            have hd := ingestFiles_pkgDirs S cf
              (compute_package_hash fh entries, name) entries
              { st0 with fs := { st0.fs with
                  pkgDirs := (compute_package_hash fh entries, name) ::
                    st0.fs.pkgDirs } } 0 0
            simp only [hloop] at hd
            exact hd
          have hany : st2.fs.pkgDirs.any
              (fun k => decide
                (k = (compute_package_hash fh entries, name))) = true := by
            simp [hdirs]
          have hfirst : ingest_package fh cf name version S st0 =
              (Except.ok
                { package_hash := compute_package_hash fh entries,
                  store_path := (compute_package_hash fh entries, name),
                  size_bytes := (entries.map (·.size)).sum,
                  file_count := entries.length,
                  deduplicated_files := dn.1, new_files := dn.2 },
               { st2 with meta :=
                   (set_refcount
                     (store_package_metadata st2.meta
                       (compute_package_hash fh entries)
                       { name := name, version := version,
                         store_path := (compute_package_hash fh entries, name),
                         entries := entries })
                     (compute_package_hash fh entries) 1) }) := by
            simp only [ingest_package, hscan, hmem, hloop]
          have hsecond : ingest_package fh cf name version S
              { st2 with meta :=
                  (set_refcount
                    (store_package_metadata st2.meta
                      (compute_package_hash fh entries)
                      { name := name, version := version,
                        store_path := (compute_package_hash fh entries, name),
                        entries := entries })
                    (compute_package_hash fh entries) 1) } =
              (Except.ok
                { package_hash := compute_package_hash fh entries,
                  store_path := (compute_package_hash fh entries, name),
                  size_bytes := (entries.map (·.size)).sum,
                  file_count := entries.length,
                  deduplicated_files := entries.length, new_files := 0 },
               { st2 with meta :=
                   (increment_refcount
                     (set_refcount
                       (store_package_metadata st2.meta
                         (compute_package_hash fh entries)
                         { name := name, version := version,
                           store_path :=
                             (compute_package_hash fh entries, name),
                           entries := entries })
                       (compute_package_hash fh entries) 1)
                     (compute_package_hash fh entries)) }) := by
            simp only [ingest_package, hscan, hany]
          simp only [hfirst, Except.ok.injEq] at h1
          simp only [hfirst, hsecond]
          subst h1
          refine ⟨_, rfl, ?_, ?_, ?_, ?_⟩ <;>
            first
            | trivial
            | exact get_refcount_increment _ _

/-- Witness for **C3**: ingesting the one-file staging tree `a ↦ []` into an
empty store succeeds, and re-ingesting it yields the same package hash,
leaves the store untouched, and bumps the refcount from 1 to 2. -/
theorem ingest_package_idempotent_witness :
    ∃ r2 : IngestResult,
      (ingest_package (fun c => c) (fun _ => false) "p" "v"
          [(["a"], SrcNode.file [] false)]
          (ingest_package (fun c => c) (fun _ => false) "p" "v"
            [(["a"], SrcNode.file [] false)] ⟨⟨[], [], []⟩, ⟨[], []⟩⟩).2).1 =
        Except.ok r2 ∧
      r2.package_hash =
        (IngestResult.mk [97, 124, 10] ([97, 124, 10], "p")
          0 1 0 1).package_hash ∧
      (ingest_package (fun c => c) (fun _ => false) "p" "v"
          [(["a"], SrcNode.file [] false)]
          (ingest_package (fun c => c) (fun _ => false) "p" "v"
            [(["a"], SrcNode.file [] false)] ⟨⟨[], [], []⟩, ⟨[], []⟩⟩).2).2.fs =
        (ingest_package (fun c => c) (fun _ => false) "p" "v"
          [(["a"], SrcNode.file [] false)] ⟨⟨[], [], []⟩, ⟨[], []⟩⟩).2.fs ∧
      (ingest_package (fun c => c) (fun _ => false) "p" "v"
          [(["a"], SrcNode.file [] false)]
          (ingest_package (fun c => c) (fun _ => false) "p" "v"
            [(["a"], SrcNode.file [] false)]
            ⟨⟨[], [], []⟩, ⟨[], []⟩⟩).2).2.meta =
        increment_refcount
          (ingest_package (fun c => c) (fun _ => false) "p" "v"
            [(["a"], SrcNode.file [] false)] ⟨⟨[], [], []⟩, ⟨[], []⟩⟩).2.meta
          (IngestResult.mk [97, 124, 10] ([97, 124, 10], "p")
            0 1 0 1).package_hash ∧
      get_refcount
          (ingest_package (fun c => c) (fun _ => false) "p" "v"
            [(["a"], SrcNode.file [] false)]
            (ingest_package (fun c => c) (fun _ => false) "p" "v"
              [(["a"], SrcNode.file [] false)]
              ⟨⟨[], [], []⟩, ⟨[], []⟩⟩).2).2.meta
          (IngestResult.mk [97, 124, 10] ([97, 124, 10], "p")
            0 1 0 1).package_hash =
        get_refcount
          (ingest_package (fun c => c) (fun _ => false) "p" "v"
            [(["a"], SrcNode.file [] false)] ⟨⟨[], [], []⟩, ⟨[], []⟩⟩).2.meta
          (IngestResult.mk [97, 124, 10] ([97, 124, 10], "p")
            0 1 0 1).package_hash + 1 :=
  ingest_package_idempotent (fun c => c) (fun _ => false) "p" "v"
    [(["a"], SrcNode.file [] false)] ⟨⟨[], [], []⟩, ⟨[], []⟩⟩
    (IngestResult.mk [97, 124, 10] ([97, 124, 10], "p") 0 1 0 1)
    (by rfl)

/-- **C7** (spec-modelled `track_file`): an ingest operation — completed or
not — preserves canonical-path uniqueness: if the MetaIndex file table maps
each file-hash to at most one canonical path beforehand, it still does
afterwards, and the canonical path registered for any hash by an earlier
ingest is neither replaced nor duplicated — every hash already in the table
keeps exactly its old canonical path. -/
theorem ingest_canonical_path_unique (fh : List Nat → List Nat)
    (cf : List String → Bool) (name version : String) (S : Staging)
    (st0 : SysState) (hn : (st0.meta.fileTable.map (·.1)).Nodup) :
    (((ingest_package fh cf name version S st0).2).meta.fileTable.map
      (·.1)).Nodup ∧
    ∀ h p, find_file_by_hash st0.meta h = some p →
      find_file_by_hash
        ((ingest_package fh cf name version S st0).2).meta h = some p := by
  cases hscan : scan_source_directory fh S with
  | error e =>
    simp only [ingest_package, hscan]
    exact ⟨hn, fun h p hf => hf⟩
  | ok entries =>
    cases hmem : st0.fs.pkgDirs.any
        (fun k => decide (k = (compute_package_hash fh entries, name))) with
    | true =>
      simp only [ingest_package, hscan, hmem]
      exact ⟨hn, fun h p hf => hf⟩
    | false =>
      cases hloop : ingestFiles S cf (compute_package_hash fh entries, name)
          entries
          { st0 with fs := { st0.fs with
              pkgDirs := (compute_package_hash fh entries, name) ::
                st0.fs.pkgDirs } } 0 0 with
      | mk res st2 =>
        have hkey : (((ingestFiles S cf
            (compute_package_hash fh entries, name) entries
            { st0 with fs := { st0.fs with
                pkgDirs := (compute_package_hash fh entries, name) ::
                  st0.fs.pkgDirs } } 0 0).2).meta.fileTable.map
              (·.1)).Nodup :=
          ingestFiles_nodup _ _ _ _ _ _ _ hn
        have hpres : ∀ h p, find_file_by_hash st0.meta h = some p →
            find_file_by_hash ((ingestFiles S cf
              (compute_package_hash fh entries, name) entries
              { st0 with fs := { st0.fs with
                  pkgDirs := (compute_package_hash fh entries, name) ::
                    st0.fs.pkgDirs } } 0 0).2).meta h = some p :=
          fun h p hf => ingestFiles_find_preserved _ _ _ _ _ _ _ _ _ hf
        rw [hloop] at hkey hpres
        cases res with
        | error e =>
          simp only [ingest_package, hscan, hmem, hloop]
          exact ⟨hkey, hpres⟩
        | ok dn =>
          simp only [ingest_package, hscan, hmem, hloop]
          exact ⟨hkey, hpres⟩

/-- Witness for **C7**: ingesting a one-file tree into a store whose
MetaIndex already maps hash `[5]` to a canonical path keeps that mapping
and keeps the file-table keys duplicate-free. -/
theorem ingest_canonical_path_unique_witness :
    (((ingest_package (fun c => c) (fun _ => false) "p" "v"
        [(["a"], SrcNode.file [3] false)]
        ⟨⟨[([5], (([9], "q"), ["f"]))], [], []⟩,
         ⟨[([9], "q")], [((([9], "q"), ["f"]), ([5], false))]⟩⟩).2).meta.fileTable.map
      (·.1)).Nodup ∧
    ∀ h p, find_file_by_hash
        (MetaIndex.mk [([5], (([9], "q"), ["f"]))] [] []) h = some p →
      find_file_by_hash
        ((ingest_package (fun c => c) (fun _ => false) "p" "v"
          [(["a"], SrcNode.file [3] false)]
          ⟨⟨[([5], (([9], "q"), ["f"]))], [], []⟩,
           ⟨[([9], "q")], [((([9], "q"), ["f"]), ([5], false))]⟩⟩).2).meta h =
        some p :=
  ingest_canonical_path_unique (fun c => c) (fun _ => false) "p" "v"
    [(["a"], SrcNode.file [3] false)]
    ⟨⟨[([5], (([9], "q"), ["f"]))], [], []⟩,
     ⟨[([9], "q")], [((([9], "q"), ["f"]), ([5], false))]⟩⟩
    (by decide)

/-- **C6**: the claim that a failed `ingest_package` leaves no observable
MetaIndex effect fails in the code: `track_file` runs inside the per-file
loop, before the package metadata commit, so when the copy of the second
file fails the canonical path recorded for the first file persists.  On the
staging tree `a ↦ [1], b ↦ [2]` with an I/O fault injected at `b`, the call
errors, yet the file table holds the entry registered for `a`. -/
theorem ingest_error_observable :
    (ingest_package (fun c => c) (fun p => decide (p = ["b"])) "p" "v"
        [(["a"], SrcNode.file [1] false), (["b"], SrcNode.file [2] false)]
        ⟨⟨[], [], []⟩, ⟨[], []⟩⟩).1 = Except.error IngestErr.ioError ∧
    ((ingest_package (fun c => c) (fun p => decide (p = ["b"])) "p" "v"
        [(["a"], SrcNode.file [1] false), (["b"], SrcNode.file [2] false)]
        ⟨⟨[], [], []⟩, ⟨[], []⟩⟩).2).meta.fileTable =
      [([1], (([97, 124, 1, 10, 98, 124, 2, 10], "p"), ["a"]))] := by
  constructor
  · rfl
  · rfl

/-- **C9**: the claim that `ingest_package` reproduces a staging symlink as
a symlink fails in the code: `WalkDir` metadata aside, `compute_file_hash`
opens the link (hashing the target's bytes), `fs::copy` dereferences it, and
`track_file` registers the symlink's destination as the canonical path for
the target's content hash.  On the staging tree `a ↦ symlink f, f ↦ [7]`,
ingestion succeeds, the store holds at relative path `a` a regular file with
the target's content `[7]` (chmod-755'd, because the link's own mode bits
look executable), and the file table's canonical path for hash `[7]` is the
symlink's destination. -/
theorem ingest_dereferences_symlink :
    (ingest_package (fun c => c) (fun _ => false) "p" "v"
        [(["a"], SrcNode.symlink ["f"]), (["f"], SrcNode.file [7] false)]
        ⟨⟨[], [], []⟩, ⟨[], []⟩⟩).1.isOk = true ∧
    readStore
        ((ingest_package (fun c => c) (fun _ => false) "p" "v"
          [(["a"], SrcNode.symlink ["f"]), (["f"], SrcNode.file [7] false)]
          ⟨⟨[], [], []⟩, ⟨[], []⟩⟩).2).fs
        (([97, 124, 7, 10, 102, 124, 7, 10], "p"), ["a"]) =
      some ([7], true) ∧
    find_file_by_hash
        ((ingest_package (fun c => c) (fun _ => false) "p" "v"
          [(["a"], SrcNode.symlink ["f"]), (["f"], SrcNode.file [7] false)]
          ⟨⟨[], [], []⟩, ⟨[], []⟩⟩).2).meta [7] =
      some (([97, 124, 7, 10, 102, 124, 7, 10], "p"), ["a"]) := by
  refine ⟨rfl, rfl, rfl⟩

end NexisPM
